import Mathlib

/-!
Shallow embedding of `src/Graph.py` (Subdue graph library): an attributed,
temporally ordered multigraph with a bounded approximate graph matcher, an
exact reference matcher, a temporal-rank labeler, a JSON loader and a
pattern-compression rewrite.

Python dictionaries are modelled as insertion-ordered association lists
(`List (String × _)`); Python object references between vertices and edges
are modelled arena-style through the owning graph's key lookup.  The
module-wide budget `gMaxMappings` and the mutable `mapping` dictionary of
the recursive matcher are threaded explicitly as parameters and results.
-/

set_option maxHeartbeats 1000000

/-- Attribute maps (`self.attrs`), an insertion-ordered string-to-string map. -/
abbrev AttrL := List (String × String)

/-- `Vertex` of `Graph.py`: id, timestamp, derived temporal rank, attributes
and the incident-edge list (edge ids, arena-style). -/
structure Vertex where
  id : String
  timestamp : Int := 0
  temporal : Nat := 0
  attrs : AttrL := []
  es : List String := []
  deriving DecidableEq

instance : Inhabited Vertex := ⟨⟨"", 0, 0, [], []⟩⟩

/-- `Edge` of `Graph.py`: id, source/target vertex ids, directedness flag,
timestamp, derived temporal rank and attributes. -/
structure Edge where
  id : String
  src : String
  tgt : String
  directed : Bool := false
  timestamp : Int := 0
  temporal : Nat := 0
  attrs : AttrL := []
  deriving DecidableEq

instance : Inhabited Edge := ⟨⟨"", "", "", false, 0, 0, []⟩⟩

/-- `Graph` of `Graph.py`: an insertion-ordered map from vertex id to vertex
and from edge id to edge. -/
structure Graph where
  vs : List (String × Vertex) := []
  es : List (String × Edge) := []
  deriving DecidableEq

/-- Keys of an association list, in insertion order (Python `dict` iteration). -/
def akeys {α : Type} (l : List (String × α)) : List String :=
  l.map Prod.fst

/-- Lookup in an association list (Python `d[k]` / `k in d`): first entry wins. -/
def alookup {α : Type} (l : List (String × α)) (k : String) : Option α :=
  (l.find? (fun p => decide (p.1 = k))).map Prod.snd

/-- Python `d[k] = v`: replace the value in place when the key exists,
otherwise append the new entry at the end (insertion order). -/
def dinsert {α : Type} (l : List (String × α)) (k : String) (v : α) :
    List (String × α) :=
  if k ∈ akeys l then l.map (fun p => if p.1 = k then (p.1, v) else p)
  else l ++ [(k, v)]

/-- Python `del d[k]` for a dict (unique keys): drop the entry with key `k`. -/
def ddel {α : Type} (l : List (String × α)) (k : String) : List (String × α) :=
  l.filter (fun p => decide (p.1 ≠ k))

/-- Update the value stored at key `k` (used for in-place mutation of a vertex
or edge reached through the owning graph). -/
def dupd {α : Type} (l : List (String × α)) (k : String) (f : α → α) :
    List (String × α) :=
  l.map (fun p => if p.1 = k then (p.1, f p.2) else p)

/-- `match_v` (Graph.py line 349): vertices match iff same attrs, same
incident-edge count and same temporal rank. -/
def match_v (g1 g2 : Graph) (v_id1 v_id2 : String) : Bool :=
  let v1 := (alookup g1.vs v_id1).getD default
  let v2 := (alookup g2.vs v_id2).getD default
  decide (v1.attrs = v2.attrs ∧ v1.es.length = v2.es.length ∧
    v1.temporal = v2.temporal)

/-- `match_e` (Graph.py line 332): edges match iff same attrs, direction and
temporal rank, and their endpoints are locally compatible (with the swapped
endpoint pairing allowed only for undirected edges).  The `mapping` argument
is carried exactly as in the source, which never reads it. -/
def match_e (g1 g2 : Graph) (e_id1 e_id2 : String)
    (mapping : List (String × String)) : Bool :=
  let e1 := (alookup g1.es e_id1).getD default
  let e2 := (alookup g2.es e_id2).getD default
  if ¬(e1.attrs = e2.attrs) ∨ e1.directed ≠ e2.directed ∨
      e1.temporal ≠ e2.temporal then false
  else if match_v g1 g2 e1.src e2.src && match_v g1 g2 e1.tgt e2.tgt then true
  else if !e1.directed && match_v g1 g2 e1.src e2.tgt &&
      match_v g1 g2 e1.tgt e2.src then true
  else false

/-- Inner `for e_id2 in g2.es` loop of `ExtendMapping` (Graph.py line 286),
parametrised over the recursive call `rec` so that the recursion is structural.
On a failed recursive call the mapping reverts to its entry state, exactly as
the Python `mapping.pop(e_id1)` restores the shared dict. -/
def EMloop (g1 g2 : Graph)
    (rec : List (String × String) → Nat → Bool × Nat × List (String × String))
    (e_id1 : String) :
    List String → List (String × String) → Nat →
      Bool × Nat × List (String × String)
  | [], mapping, n => (false, n, mapping)
  | e_id2 :: rest, mapping, n =>
    if e_id2 ∈ mapping.map Prod.snd then EMloop g1 g2 rec e_id1 rest mapping n
    else if match_e g1 g2 e_id1 e_id2 mapping then
      match rec (mapping ++ [(e_id1, e_id2)]) (n + 1) with
      | (true, n', m') => (true, n', m')
      | (false, n', _) => EMloop g1 g2 rec e_id1 rest mapping n'
    else EMloop g1 g2 rec e_id1 rest mapping n

/-- `ExtendMapping` (Graph.py line 272).  `budget` threads the module global
`gMaxMappings`; `fuel` bounds the recursion depth (any value larger than the
number of unmapped edges is enough, since the mapping grows at each level). -/
def ExtendMapping (g1 g2 : Graph) (budget : Nat) :
    Nat → List (String × String) → Nat → Bool × Nat × List (String × String)
  | 0, mapping, n => (false, n, mapping)
  | fuel + 1, mapping, n =>
    if mapping.length = g1.es.length then (true, n, mapping)
    else if n > budget then (false, n, mapping)
    else
      match (akeys g1.es).find? (fun k => decide (k ∉ akeys mapping)) with
      | none => (false, n, mapping)
      | some e_id1 =>
        EMloop g1 g2 (ExtendMapping g1 g2 budget fuel) e_id1
          (akeys g2.es) mapping n

/-- `match_g` (Graph.py line 257), the approximate bounded matcher.  `none`
models the `IndexError` raised by `v1keys[0]` on an empty vertex list. -/
def match_g (g1 g2 : Graph) : Option Bool :=
  if g1.vs.length ≠ g2.vs.length ∨ g1.es.length ≠ g2.es.length then some false
  else if g1.es.length = 0 then
    match (akeys g1.vs).head?, (akeys g2.vs).head? with
    | some k1, some k2 => some (match_v g1 g2 k1 k2)
    | _, _ => none
  else
    some (ExtendMapping g1 g2 (g1.es.length ^ 2) (g1.es.length + 1) [] 0).1

/-- Inner loop of `ExtendMapping_Orig` (Graph.py line 322). -/
def EMOloop (g1 g2 : Graph)
    (rec : List (String × String) → Bool × List (String × String))
    (e_id1 : String) :
    List String → List (String × String) → Bool × List (String × String)
  | [], mapping => (false, mapping)
  | e_id2 :: rest, mapping =>
    if e_id2 ∈ mapping.map Prod.snd then EMOloop g1 g2 rec e_id1 rest mapping
    else if match_e g1 g2 e_id1 e_id2 mapping then
      match rec (mapping ++ [(e_id1, e_id2)]) with
      | (true, m') => (true, m')
      | (false, _) => EMOloop g1 g2 rec e_id1 rest mapping
    else EMOloop g1 g2 rec e_id1 rest mapping

/-- `ExtendMapping_Orig` (Graph.py line 313), the exhaustive reference search. -/
def ExtendMapping_Orig (g1 g2 : Graph) :
    Nat → List (String × String) → Bool × List (String × String)
  | 0, mapping => (false, mapping)
  | fuel + 1, mapping =>
    if mapping.length = g1.es.length then (true, mapping)
    else
      match (akeys g1.es).find? (fun k => decide (k ∉ akeys mapping)) with
      | none => (false, mapping)
      | some e_id1 =>
        EMOloop g1 g2 (ExtendMapping_Orig g1 g2 fuel) e_id1
          (akeys g2.es) mapping

/-- `match_g_Orig` (Graph.py line 299), the exact matcher. -/
def match_g_Orig (g1 g2 : Graph) : Option Bool :=
  if g1.vs.length ≠ g2.vs.length then some false
  else if g1.es.length ≠ g2.es.length then some false
  else if g1.es.length = 0 then
    match (akeys g1.vs).head?, (akeys g2.vs).head? with
    | some k1, some k2 => some (match_v g1 g2 k1 k2)
    | _, _ => none
  else
    some (ExtendMapping_Orig g1 g2 (g1.es.length + 1) []).1

/-- The deduplicated accumulation used by `TemporalOrder` (the
`if v.timestamp not in timestamps: timestamps.append(...)` loop). -/
def dedupAppend {β : Type} (f : β → Int) (acc : List Int) (l : List β) :
    List Int :=
  l.foldl (fun a b => if f b ∈ a then a else a ++ [f b]) acc

/-- The deduplicating timestamp collection of `TemporalOrder` (Graph.py
lines 55-61): append each timestamp not seen before, vertices first. -/
def collectTimestamps (g : Graph) : List Int :=
  dedupAppend (fun p => p.2.timestamp)
    (dedupAppend (fun p => p.2.timestamp) [] g.vs) g.es

/-- Python `timestamps.sort()`: the collected distinct timestamps in ascending
order. -/
def sortedTimestamps (g : Graph) : List Int :=
  (collectTimestamps g).insertionSort (· ≤ ·)

/-- `Graph.TemporalOrder` (Graph.py line 52): each vertex and edge receives as
temporal rank the index of its timestamp in the sorted distinct-timestamp
list (`timestamps.index(...)`). -/
def TemporalOrder (g : Graph) : Graph :=
  let ts := sortedTimestamps g
  { vs := g.vs.map (fun p => (p.1, { p.2 with temporal := ts.indexOf p.2.timestamp })),
    es := g.es.map (fun p => (p.1, { p.2 with temporal := ts.indexOf p.2.timestamp })) }

/-- The `(timestamp, temporal)` pairs of all entities (vertices then edges) of
a graph, used to state the temporal-ordering properties. -/
def entityTs (g : Graph) : List (Int × Nat) :=
  g.vs.map (fun p => (p.2.timestamp, p.2.temporal)) ++
    g.es.map (fun p => (p.2.timestamp, p.2.temporal))

/-! ### JSON loading (`Graph.from_json`, Graph.py line 71)

A record is a JSON object that may carry a `vertex` object and/or an `edge`
object; inside them every field is optional so that a missing required field
(Python `KeyError`) can be expressed.  `from_json` returns the final state of
`self` together with a success flag: `false` means a `KeyError` escaped,
leaving `self` holding everything processed before the failure. -/

/-- The `vertex` object of a JSON record; `none` fields are absent keys. -/
structure VDict where
  vid? : Option String := none
  timestamp? : Option Int := none
  attrs? : Option AttrL := none
  deriving DecidableEq

/-- The `edge` object of a JSON record; `none` fields are absent keys. -/
structure EDict where
  eid? : Option String := none
  source? : Option String := none
  target? : Option String := none
  directedStr? : Option String := none
  timestamp? : Option Int := none
  attrs? : Option AttrL := none
  deriving DecidableEq

/-- One element of the JSON array passed to `from_json`. -/
structure JRec where
  vertex? : Option VDict := none
  edge? : Option EDict := none
  deriving DecidableEq

/-- The `'vertex' in json_object` branch of `from_json` (lines 76-88).
`none` models the `KeyError` on a missing `id`. -/
def fj_vertex (g : Graph) (vd : VDict) : Option Graph :=
  match vd.vid? with
  | none => none
  | some v_id =>
    if v_id ∈ akeys g.vs then some g
    else
      let v : Vertex :=
        { id := v_id, timestamp := vd.timestamp?.getD 0, temporal := 0,
          attrs := vd.attrs?.getD [], es := [] }
      some { g with vs := dinsert g.vs v_id v }

/-- The `'edge' in json_object` branch of `from_json` (lines 89-106).
`none` models a `KeyError`: a missing `id`/`source`/`target`/`directed`
field, or a source/target id that is not an already-seen vertex.  All reads
happen before any mutation, so a failing edge record adds nothing. -/
def fj_edge (g : Graph) (ed : EDict) : Option Graph :=
  match ed.eid?, ed.source?, ed.target? with
  | some e_id, some s_id, some t_id =>
    if s_id ∈ akeys g.vs then
      if t_id ∈ akeys g.vs then
        match ed.directedStr? with
        | none => none
        | some dstr =>
          let e : Edge :=
            { id := e_id, src := s_id, tgt := t_id,
              directed := decide (dstr = "true"),
              timestamp := ed.timestamp?.getD 0, temporal := 0,
              attrs := ed.attrs?.getD [] }
          let es' := dinsert g.es e_id e
          let vs' := dupd g.vs s_id (fun v => { v with es := v.es ++ [e_id] })
          let vs'' := dupd vs' t_id (fun v => { v with es := v.es ++ [e_id] })
          some { vs := vs'', es := es' }
      else none
    else none
  | _, _, _ => none

/-- Process one JSON record: the vertex branch, then the edge branch.  The
returned graph is the state of `self` when the record finished or failed. -/
def fj_rec (g : Graph) (r : JRec) : Graph × Bool :=
  match r.vertex? with
  | some vd =>
    match fj_vertex g vd with
    | none => (g, false)
    | some g1 =>
      match r.edge? with
      | some ed =>
        match fj_edge g1 ed with
        | none => (g1, false)
        | some g2 => (g2, true)
      | none => (g1, true)
  | none =>
    match r.edge? with
    | some ed =>
      match fj_edge g ed with
      | none => (g, false)
      | some g2 => (g2, true)
    | none => (g, true)

/-- The record loop of `from_json`: stop at the first failing record,
returning the partially built graph. -/
def fj_go : List JRec → Graph → Graph × Bool
  | [], g => (g, true)
  | r :: rs, g =>
    match fj_rec g r with
    | (g', true) => fj_go rs g'
    | (g', false) => (g', false)

/-- `Graph.from_json` (Graph.py line 71): reset `self` to the empty graph and
process the records in order.  The flag is `false` when a lookup/parse
failure (`KeyError`) aborted the load; the graph component is the state of
`self` observable after the abort. -/
def from_json (g_json : List JRec) : Graph × Bool :=
  fj_go g_json { vs := [], es := [] }

/-! ### Compression (`Graph.Compress`, Graph.py line 24) -/

/-- An `Instance` as consumed by `Compress`: vertex ids, edge ids and the
`max_timestamp()` accessor value (the `Pattern`/`Instance` classes are
external to `Graph.py` and enter only through this read-only contract). -/
structure PInstance where
  vs : List String := []
  es : List String := []
  max_timestamp : Int := 0
  deriving DecidableEq

/-- A `Pattern` as consumed by `Compress`: its ordered instances. -/
structure Pattern where
  insts : List PInstance := []
  deriving DecidableEq

/-- Lines 37-40 of `Compress`: remove one instance edge from the graph's edge
map and from the incident-edge lists of its current source and target
vertices (`list.remove` drops one occurrence). -/
def removeInstEdge (g : Graph) (eid : String) : Graph :=
  match alookup g.es eid with
  | none => g
  | some e =>
    let vs1 := dupd g.vs e.src (fun v => { v with es := v.es.erase eid })
    let vs2 := dupd vs1 e.tgt (fun v => { v with es := v.es.erase eid })
    { vs := vs2, es := ddel g.es eid }

/-- Lines 43-49 of `Compress`: re-point one remaining incident edge of the
instance vertex `vid` at the synthetic vertex `nvid` and append it to the
synthetic vertex's incident list unless already present. -/
def repointEdge (nvid vid : String) (g : Graph) (eid : String) : Graph :=
  match alookup g.es eid with
  | none => g
  | some e =>
    let e' := { e with src := if e.src = vid then nvid else e.src,
                       tgt := if e.tgt = vid then nvid else e.tgt }
    let es' := dupd g.es eid (fun _ => e')
    let nv := (alookup g.vs nvid).getD default
    if eid ∈ nv.es then { g with es := es' }
    else { vs := dupd g.vs nvid (fun v => { v with es := v.es ++ [eid] }),
           es := es' }

/-- Lines 42-50 of `Compress`: process one instance vertex — re-point each of
its remaining incident edges at the synthetic vertex, then delete it from the
graph's vertex map. -/
def compressVertex (nvid : String) (g : Graph) (vid : String) : Graph :=
  match alookup g.vs vid with
  | none => g
  | some v =>
    let g' := v.es.foldl (repointEdge nvid vid) g
    { g' with vs := ddel g'.vs vid }

/-- One iteration of the `for i, inst in enumerate(pattern.insts)` loop of
`Compress` (lines 27-50): add the synthetic vertex, remove the instance's
edges, then fold the instance's vertices into the synthetic vertex. -/
def CompressInst (it i : Nat) (g : Graph) (inst : PInstance) : Graph :=
  let n_vl := "PATTERN-" ++ toString it
  let n_vid := "PATTERN-" ++ toString it ++ "-" ++ toString i
  let n_v : Vertex :=
    { id := n_vid, timestamp := inst.max_timestamp, temporal := 0,
      attrs := [("label", n_vl)], es := [] }
  let g1 : Graph := { g with vs := dinsert g.vs n_vid n_v }
  let g2 := inst.es.foldl removeInstEdge g1
  inst.vs.foldl (compressVertex n_vid) g2

/-- `Graph.Compress` (Graph.py line 24): fold every pattern instance into a
fresh synthetic vertex, in instance order. -/
def Compress (g : Graph) (it : Nat) (pattern : Pattern) : Graph :=
  (pattern.insts.enum).foldl (fun h p => CompressInst it p.1 h p.2) g

/-! ### State-threaded matcher (for the frame property)

The Python matcher receives the two graphs by reference; any mutation inside
it would persist in the caller's objects.  The translations below thread the
graph states explicitly through every call: each function returns, next to
its result, the state of both graphs when it finishes.  The bodies of
`match_v`/`match_e` contain only reads, so their threaded state is the input
state; the recursive functions propagate whatever states their callees
return. -/

/-- State-threaded `match_e`: performs its reads and returns the graph states
it finished with. -/
def match_e_st (g1 g2 : Graph) (e_id1 e_id2 : String)
    (mapping : List (String × String)) : Bool × Graph × Graph :=
  (match_e g1 g2 e_id1 e_id2 mapping, g1, g2)

/-- State-threaded inner loop of `ExtendMapping`: graph states flow through
`match_e_st` and the recursive call. -/
def EMloop_st (rec : Graph → Graph → List (String × String) → Nat →
      Bool × Nat × List (String × String) × Graph × Graph)
    (e_id1 : String) :
    Graph → Graph → List String → List (String × String) → Nat →
      Bool × Nat × List (String × String) × Graph × Graph
  | g1, g2, [], mapping, n => (false, n, mapping, g1, g2)
  | g1, g2, e_id2 :: rest, mapping, n =>
    if e_id2 ∈ mapping.map Prod.snd then
      EMloop_st rec e_id1 g1 g2 rest mapping n
    else
      match match_e_st g1 g2 e_id1 e_id2 mapping with
      | (true, g1', g2') =>
        match rec g1' g2' (mapping ++ [(e_id1, e_id2)]) (n + 1) with
        | (true, n', m', g1'', g2'') => (true, n', m', g1'', g2'')
        | (false, n', _, g1'', g2'') => EMloop_st rec e_id1 g1'' g2'' rest mapping n'
      | (false, g1', g2') => EMloop_st rec e_id1 g1' g2' rest mapping n

/-- State-threaded `ExtendMapping`. -/
def ExtendMapping_st (budget : Nat) :
    Nat → Graph → Graph → List (String × String) → Nat →
      Bool × Nat × List (String × String) × Graph × Graph
  | 0, g1, g2, mapping, n => (false, n, mapping, g1, g2)
  | fuel + 1, g1, g2, mapping, n =>
    if mapping.length = g1.es.length then (true, n, mapping, g1, g2)
    else if n > budget then (false, n, mapping, g1, g2)
    else
      match (akeys g1.es).find? (fun k => decide (k ∉ akeys mapping)) with
      | none => (false, n, mapping, g1, g2)
      | some e_id1 =>
        EMloop_st (ExtendMapping_st budget fuel) e_id1 g1 g2
          (akeys g2.es) mapping n

/-- State-threaded `match_g`. -/
def match_g_st (g1 g2 : Graph) : Option Bool × Graph × Graph :=
  if g1.vs.length ≠ g2.vs.length ∨ g1.es.length ≠ g2.es.length then
    (some false, g1, g2)
  else if g1.es.length = 0 then
    match (akeys g1.vs).head?, (akeys g2.vs).head? with
    | some k1, some k2 =>
      match match_v g1 g2 k1 k2 with
      | b => (some b, g1, g2)
    | _, _ => (none, g1, g2)
  else
    match ExtendMapping_st (g1.es.length ^ 2) (g1.es.length + 1) g1 g2 [] 0 with
    | (found, _, _, g1', g2') => (some found, g1', g2')

/-- State-threaded inner loop of `ExtendMapping_Orig`. -/
def EMOloop_st (rec : Graph → Graph → List (String × String) →
      Bool × List (String × String) × Graph × Graph)
    (e_id1 : String) :
    Graph → Graph → List String → List (String × String) →
      Bool × List (String × String) × Graph × Graph
  | g1, g2, [], mapping => (false, mapping, g1, g2)
  | g1, g2, e_id2 :: rest, mapping =>
    if e_id2 ∈ mapping.map Prod.snd then
      EMOloop_st rec e_id1 g1 g2 rest mapping
    else
      match match_e_st g1 g2 e_id1 e_id2 mapping with
      | (true, g1', g2') =>
        match rec g1' g2' (mapping ++ [(e_id1, e_id2)]) with
        | (true, m', g1'', g2'') => (true, m', g1'', g2'')
        | (false, _, g1'', g2'') => EMOloop_st rec e_id1 g1'' g2'' rest mapping
      | (false, g1', g2') => EMOloop_st rec e_id1 g1' g2' rest mapping

/-- State-threaded `ExtendMapping_Orig`. -/
def ExtendMapping_Orig_st :
    Nat → Graph → Graph → List (String × String) →
      Bool × List (String × String) × Graph × Graph
  | 0, g1, g2, mapping => (false, mapping, g1, g2)
  | fuel + 1, g1, g2, mapping =>
    if mapping.length = g1.es.length then (true, mapping, g1, g2)
    else
      match (akeys g1.es).find? (fun k => decide (k ∉ akeys mapping)) with
      | none => (false, mapping, g1, g2)
      | some e_id1 =>
        EMOloop_st (ExtendMapping_Orig_st fuel) e_id1 g1 g2
          (akeys g2.es) mapping

/-- State-threaded `match_g_Orig`. -/
def match_g_Orig_st (g1 g2 : Graph) : Option Bool × Graph × Graph :=
  if g1.vs.length ≠ g2.vs.length then (some false, g1, g2)
  else if g1.es.length ≠ g2.es.length then (some false, g1, g2)
  else if g1.es.length = 0 then
    match (akeys g1.vs).head?, (akeys g2.vs).head? with
    | some k1, some k2 =>
      match match_v g1 g2 k1 k2 with
      | b => (some b, g1, g2)
    | _, _ => (none, g1, g2)
  else
    match ExtendMapping_Orig_st (g1.es.length + 1) g1 g2 [] with
    | (found, _, g1', g2') => (some found, g1', g2')

/-! ### Claims C9, C5, C7, C6 and supporting lemmas -/

/-- The data `match_v` compares: attributes, incident-edge count and temporal
rank of the vertex a graph stores under an id. -/
def vclass (g : Graph) (vid : String) : AttrL × Nat × Nat :=
  let v := (alookup g.vs vid).getD default
  (v.attrs, v.es.length, v.temporal)

theorem match_v_true_iff (g1 g2 : Graph) (a b : String) :
    match_v g1 g2 a b = true ↔ vclass g1 a = vclass g2 b := by
  simp [match_v, vclass, Prod.ext_iff]

theorem match_e_true_iff (g1 g2 : Graph) (e1 e2 : String)
    (m : List (String × String)) :
    match_e g1 g2 e1 e2 m = true ↔
      ((alookup g1.es e1).getD default).attrs = ((alookup g2.es e2).getD default).attrs ∧
      ((alookup g1.es e1).getD default).directed = ((alookup g2.es e2).getD default).directed ∧
      ((alookup g1.es e1).getD default).temporal = ((alookup g2.es e2).getD default).temporal ∧
      ((match_v g1 g2 ((alookup g1.es e1).getD default).src
            ((alookup g2.es e2).getD default).src = true ∧
          match_v g1 g2 ((alookup g1.es e1).getD default).tgt
            ((alookup g2.es e2).getD default).tgt = true) ∨
        (((alookup g1.es e1).getD default).directed = false ∧
          match_v g1 g2 ((alookup g1.es e1).getD default).src
            ((alookup g2.es e2).getD default).tgt = true ∧
          match_v g1 g2 ((alookup g1.es e1).getD default).tgt
            ((alookup g2.es e2).getD default).src = true)) := by
  unfold match_e
  dsimp only
  split_ifs with h1 h2 h3
  · simp only [false_iff]
    rintro ⟨ha, hd, ht, -⟩
    rcases h1 with h | h | h <;> exact h (by assumption)
  · push_neg at h1
    rw [Bool.and_eq_true] at h2
    simp only [true_iff]
    exact ⟨h1.1, h1.2.1, h1.2.2, Or.inl ⟨h2.1, h2.2⟩⟩
  · push_neg at h1
    rw [Bool.and_eq_true, Bool.and_eq_true] at h3
    simp only [true_iff]
    refine ⟨h1.1, h1.2.1, h1.2.2, Or.inr ⟨?_, h3.1.2, h3.2⟩⟩
    simpa using h3.1.1
  · push_neg at h1
    simp only [false_iff]
    rintro ⟨-, -, -, hcase | hcase⟩
    · exact h2 (by rw [Bool.and_eq_true]; exact ⟨hcase.1, hcase.2⟩)
    · exact h3 (by
        rw [Bool.and_eq_true, Bool.and_eq_true]
        exact ⟨⟨by simp [hcase.1], hcase.2.1⟩, hcase.2.2⟩)

/-- The compatibility relation `match_e` is difunctional: compatibility of
`a,b`, `c,b` and `c,d` forces compatibility of `a,d`.  This is the structural
reason the backtracking search never needs to revisit a choice between
compatible partners. -/
theorem match_e_difun (g1 g2 : Graph) (a b c d : String)
    (hab : match_e g1 g2 a b [] = true) (hcb : match_e g1 g2 c b [] = true)
    (hcd : match_e g1 g2 c d [] = true) : match_e g1 g2 a d [] = true := by
  rw [match_e_true_iff] at hab hcb hcd ⊢
  simp only [match_v_true_iff] at hab hcb hcd ⊢
  obtain ⟨hab1, hab2, hab3, hab4⟩ := hab
  obtain ⟨hcb1, hcb2, hcb3, hcb4⟩ := hcb
  obtain ⟨hcd1, hcd2, hcd3, hcd4⟩ := hcd
  refine ⟨hab1.trans (hcb1.symm.trans hcd1), hab2.trans (hcb2.symm.trans hcd2),
    hab3.trans (hcb3.symm.trans hcd3), ?_⟩
  have hdir : ((alookup g1.es a).getD default).directed =
      ((alookup g1.es c).getD default).directed := hab2.trans hcb2.symm
  rcases hab4 with ⟨hs1, ht1⟩ | ⟨hd1, hs1, ht1⟩ <;>
    rcases hcb4 with ⟨hs2, ht2⟩ | ⟨hd2, hs2, ht2⟩ <;>
      rcases hcd4 with ⟨hs3, ht3⟩ | ⟨hd3, hs3, ht3⟩
  · exact Or.inl ⟨hs1.trans (hs2.symm.trans hs3), ht1.trans (ht2.symm.trans ht3)⟩
  · exact Or.inr ⟨hdir.trans hd3, hs1.trans (hs2.symm.trans hs3),
      ht1.trans (ht2.symm.trans ht3)⟩
  · exact Or.inr ⟨hdir.trans hd2, hs1.trans (ht2.symm.trans ht3),
      ht1.trans (hs2.symm.trans hs3)⟩
  · exact Or.inl ⟨hs1.trans (ht2.symm.trans ht3), ht1.trans (hs2.symm.trans hs3)⟩
  · exact Or.inr ⟨hd1, hs1.trans (ht2.symm.trans ht3), ht1.trans (hs2.symm.trans hs3)⟩
  · exact Or.inl ⟨hs1.trans (ht2.symm.trans ht3), ht1.trans (hs2.symm.trans hs3)⟩
  · exact Or.inl ⟨hs1.trans (hs2.symm.trans hs3), ht1.trans (ht2.symm.trans ht3)⟩
  · exact Or.inr ⟨hd1, hs1.trans (hs2.symm.trans hs3), ht1.trans (ht2.symm.trans ht3)⟩

/-- C9: `match_e(g1, g2, e1, e2, mapping)` is independent of the partial
mapping argument: for any two mappings `m` and `m'` it returns the same
boolean, so the search enforces no consistency between the vertex
identifications implied by different mapped edge pairs. -/
theorem claim_C9 (g1 g2 : Graph) (e1 e2 : String)
    (m m' : List (String × String)) :
    match_e g1 g2 e1 e2 m = match_e g1 g2 e1 e2 m' := rfl

/-- C5: `match_e` returns true iff the two edges have equal attribute maps,
equal directedness, equal temporal ranks, and either both straight endpoint
pairs satisfy `match_v`, or the edge is undirected and both swapped endpoint
pairs do; in particular two one-edge graphs identical except for the
directedness of the edge do not match. -/
theorem claim_C5 :
    (∀ (g1 g2 : Graph) (e1 e2 : String) (m : List (String × String)),
      match_e g1 g2 e1 e2 m = true ↔
        ((alookup g1.es e1).getD default).attrs =
            ((alookup g2.es e2).getD default).attrs ∧
        ((alookup g1.es e1).getD default).directed =
            ((alookup g2.es e2).getD default).directed ∧
        ((alookup g1.es e1).getD default).temporal =
            ((alookup g2.es e2).getD default).temporal ∧
        ((match_v g1 g2 ((alookup g1.es e1).getD default).src
              ((alookup g2.es e2).getD default).src = true ∧
            match_v g1 g2 ((alookup g1.es e1).getD default).tgt
              ((alookup g2.es e2).getD default).tgt = true) ∨
          (((alookup g1.es e1).getD default).directed = false ∧
            match_v g1 g2 ((alookup g1.es e1).getD default).src
              ((alookup g2.es e2).getD default).tgt = true ∧
            match_v g1 g2 ((alookup g1.es e1).getD default).tgt
              ((alookup g2.es e2).getD default).src = true))) ∧
    match_g
      ⟨[("1", ⟨"1", 0, 0, [], ["e1"]⟩), ("2", ⟨"2", 0, 0, [], ["e1"]⟩)],
       [("e1", ⟨"e1", "1", "2", true, 0, 0, []⟩)]⟩
      ⟨[("x", ⟨"x", 0, 0, [], ["ex"]⟩), ("y", ⟨"y", 0, 0, [], ["ex"]⟩)],
       [("ex", ⟨"ex", "x", "y", false, 0, 0, []⟩)]⟩ = some false :=
  ⟨match_e_true_iff, by decide⟩

/-- Any nonempty list's optional head is its defaulted head. -/
theorem head?_eq_headD {α : Type} (xs : List α) (d : α) (h : xs ≠ []) :
    xs.head? = some (xs.headD d) := by
  cases xs with
  | nil => exact absurd rfl h
  | cons x t => rfl

/-- C7 counterexample: two zero-edge graphs with two vertices each are
matched silently (result `some true`): no logic error is signalled even
though more than one vertex is present. -/
theorem claim_C7_counterexample :
    match_g
      ⟨[("a", ⟨"a", 0, 0, [], []⟩), ("b", ⟨"b", 0, 0, [], []⟩)], []⟩
      ⟨[("c", ⟨"c", 0, 0, [], []⟩), ("d", ⟨"d", 0, 0, [], []⟩)], []⟩ =
      some true := by decide

/-- C7 amended: with zero edges on both sides and equal vertex counts,
`match_g` delegates to `match_v` on the first vertex of each graph; when a
graph has more than one vertex the remaining vertices are silently ignored
(no logic error is signalled), and the empty graph fails with an
`IndexError` (`none`) rather than a result. -/
theorem claim_C7 (g1 g2 : Graph) (hv : g1.vs.length = g2.vs.length)
    (he1 : g1.es.length = 0) (he2 : g2.es.length = 0) (hne : g1.vs ≠ []) :
    match_g g1 g2 =
      some (match_v g1 g2 ((akeys g1.vs).headD "") ((akeys g2.vs).headD "")) := by
  have h2ne : g2.vs ≠ [] := by
    intro h
    rw [h] at hv
    exact hne (List.length_eq_zero.mp hv)
  have hk1 : akeys g1.vs ≠ [] := by
    simp [akeys, hne]
  have hk2 : akeys g2.vs ≠ [] := by
    simp [akeys, h2ne]
  unfold match_g
  rw [if_neg (by push_neg; exact ⟨hv, by rw [he1, he2]⟩), if_pos he1,
    head?_eq_headD _ "" hk1, head?_eq_headD _ "" hk2]

/-- C7 witness. -/
theorem claim_C7_witness :
    match_g
      ⟨[("a", ⟨"a", 0, 0, [], []⟩), ("b", ⟨"b", 0, 0, [], []⟩)], []⟩
      ⟨[("c", ⟨"c", 0, 0, [], []⟩), ("d", ⟨"d", 0, 0, [], []⟩)], []⟩ =
      some (match_v
        ⟨[("a", ⟨"a", 0, 0, [], []⟩), ("b", ⟨"b", 0, 0, [], []⟩)], []⟩
        ⟨[("c", ⟨"c", 0, 0, [], []⟩), ("d", ⟨"d", 0, 0, [], []⟩)], []⟩
        "a" "c") :=
  claim_C7 _ _ (by decide) (by decide) (by decide) (by decide)

/-- Prefix law for the `from_json` record loop: once a prefix has loaded
successfully, processing continues from its final state. -/
theorem fj_go_append (rs1 : List JRec) :
    ∀ (rs2 : List JRec) (g g1 : Graph), fj_go rs1 g = (g1, true) →
      fj_go (rs1 ++ rs2) g = fj_go rs2 g1 := by
  induction rs1 with
  | nil =>
    intro rs2 g g1 h
    simp only [fj_go] at h
    obtain ⟨rfl, -⟩ := Prod.mk.injEq .. ▸ h
    rfl
  | cons r rs ih =>
    intro rs2 g g1 h
    simp only [fj_go, List.cons_append] at h ⊢
    cases hr : fj_rec g r with
    | mk g' flag =>
      cases flag with
      | true =>
        rw [hr] at h
        exact ih rs2 g' g1 h
      | false =>
        rw [hr] at h
        exact absurd (congrArg Prod.snd h) (by simp)

/-- C6 counterexample: loading a vertex record and then an edge record whose
target id is unknown aborts the load, but the graph is left holding exactly
the vertex processed before the failing record — a partial graph survives,
contrary to the claim. -/
theorem claim_C6_counterexample :
    from_json
      [⟨some ⟨some "a", none, none⟩, none⟩,
       ⟨none, some ⟨some "e", some "a", some "b", some "true", none, none⟩⟩] =
      (⟨[("a", ⟨"a", 0, 0, [], []⟩)], []⟩, false) := by decide

/-- C6 amended: an edge referencing an unknown vertex id or a record missing
a required field signals a lookup failure (`false`) and aborts the load at
that record, but the graph is left holding exactly the vertices and edges
processed before the failing record. -/
theorem claim_C6 (rs1 : List JRec) (r : JRec) (rs2 : List JRec) (g1 : Graph)
    (h1 : fj_go rs1 ⟨[], []⟩ = (g1, true)) (h2 : (fj_rec g1 r).2 = false) :
    from_json (rs1 ++ r :: rs2) = ((fj_rec g1 r).1, false) := by
  unfold from_json
  rw [fj_go_append rs1 (r :: rs2) _ g1 h1]
  simp only [fj_go]
  cases hr : fj_rec g1 r with
  | mk g' flag =>
    rw [hr] at h2
    simp only at h2
    subst h2
    rfl

/-- C6 witness. -/
theorem claim_C6_witness :
    fj_go [⟨some ⟨some "a", none, none⟩, none⟩] ⟨[], []⟩ =
        (⟨[("a", ⟨"a", 0, 0, [], []⟩)], []⟩, true) ∧
    (fj_rec ⟨[("a", ⟨"a", 0, 0, [], []⟩)], []⟩
        ⟨none, some ⟨some "e", some "a", some "b", some "true", none, none⟩⟩).2 =
      false ∧
    from_json
      [⟨some ⟨some "a", none, none⟩, none⟩,
       ⟨none, some ⟨some "e", some "a", some "b", some "true", none, none⟩⟩] =
      ((fj_rec ⟨[("a", ⟨"a", 0, 0, [], []⟩)], []⟩
        ⟨none, some ⟨some "e", some "a", some "b", some "true", none, none⟩⟩).1,
       false) :=
  ⟨by decide, by decide,
    claim_C6 [⟨some ⟨some "a", none, none⟩, none⟩]
      ⟨none, some ⟨some "e", some "a", some "b", some "true", none, none⟩⟩ []
      ⟨[("a", ⟨"a", 0, 0, [], []⟩)], []⟩ (by decide) (by decide)⟩

/-! ### Claim C3: budget, abort and success conditions of the bounded search -/

/-- If the inner loop reports success, the final mapping is complete,
provided every recursive call satisfies the same law. -/
theorem EMloop_true_length (g1 g2 : Graph)
    (rec : List (String × String) → Nat → Bool × Nat × List (String × String))
    (e1 : String)
    (hrec : ∀ m n n' m', rec m n = (true, n', m') → m'.length = g1.es.length) :
    ∀ (cands : List String) (m : List (String × String)) (n n' : Nat)
      (m' : List (String × String)),
      EMloop g1 g2 rec e1 cands m n = (true, n', m') →
        m'.length = g1.es.length := by
  intro cands
  induction cands with
  | nil =>
    intro m n n' m' h
    simp [EMloop] at h
  | cons e2 rest ih =>
    intro m n n' m' h
    simp only [EMloop] at h
    split_ifs at h with h1 h2
    · exact ih m n n' m' h
    · rcases hr : rec (m ++ [(e1, e2)]) (n + 1) with ⟨b, n2, m2⟩
      rw [hr] at h
      cases b with
      | true =>
        simp only at h
        obtain ⟨-, -, rfl⟩ : true = true ∧ n2 = n' ∧ m2 = m' := by
          simpa [Prod.ext_iff] using h
        exact hrec _ _ _ _ hr
      | false =>
        simp only at h
        exact ih m n2 n' m' h
    · exact ih m n n' m' h

/-- `ExtendMapping` reports success only with a complete mapping: whenever it
returns `true`, the returned mapping has exactly as many pairs as `g1` has
edges. -/
theorem ExtendMapping_true_length (g1 g2 : Graph) (budget : Nat) :
    ∀ (fuel : Nat) (m : List (String × String)) (n n' : Nat)
      (m' : List (String × String)),
      ExtendMapping g1 g2 budget fuel m n = (true, n', m') →
        m'.length = g1.es.length := by
  intro fuel
  induction fuel with
  | zero =>
    intro m n n' m' h
    simp [ExtendMapping] at h
  | succ fuel ih =>
    intro m n n' m' h
    simp only [ExtendMapping] at h
    split_ifs at h with h1 h2
    · obtain ⟨-, -, rfl⟩ : true = true ∧ n = n' ∧ m = m' := by
        simpa [Prod.ext_iff] using h
      exact h1
    · simp [Prod.ext_iff] at h
    · cases hf : (akeys g1.es).find? (fun k => decide (k ∉ akeys m)) with
      | none =>
        rw [hf] at h
        simp [Prod.ext_iff] at h
      | some e1 =>
        rw [hf] at h
        exact EMloop_true_length g1 g2 _ e1 (fun a b c d hh => ih a b c d hh)
          (akeys g2.es) m n n' m' h

/-- C3: on graphs with equal non-zero edge counts `match_g` runs the search
with the attempt budget `(edge count of g1)^2`; any recursive call whose
mapping is incomplete and whose attempt counter exceeds that budget returns
the defined non-match value `(False, n_mappings)` with the mapping untouched;
and a `True` result is only ever produced with every edge of `g1` mapped. -/
theorem claim_C3 (g1 g2 : Graph) (hv : g1.vs.length = g2.vs.length)
    (he : g1.es.length = g2.es.length) (hne : g1.es.length ≠ 0) :
    (match_g g1 g2 =
      some (ExtendMapping g1 g2 (g1.es.length ^ 2) (g1.es.length + 1) [] 0).1) ∧
    (∀ (fuel : Nat) (m : List (String × String)) (n : Nat),
      m.length ≠ g1.es.length → n > g1.es.length ^ 2 →
        ExtendMapping g1 g2 (g1.es.length ^ 2) (fuel + 1) m n = (false, n, m)) ∧
    (∀ (fuel : Nat) (m : List (String × String)) (n n' : Nat)
      (m' : List (String × String)),
      ExtendMapping g1 g2 (g1.es.length ^ 2) fuel m n = (true, n', m') →
        m'.length = g1.es.length) := by
  refine ⟨?_, ?_, fun fuel m n n' m' h =>
    ExtendMapping_true_length g1 g2 _ fuel m n n' m' h⟩
  · unfold match_g
    rw [if_neg (by push_neg; exact ⟨hv, he⟩), if_neg hne]
  · intro fuel m n hm hn
    simp only [ExtendMapping]
    rw [if_neg hm, if_pos hn]

/-- C3 witness. -/
theorem claim_C3_witness :
    match_g
      ⟨[("1", ⟨"1", 0, 0, [], ["e1"]⟩), ("2", ⟨"2", 0, 0, [], ["e1"]⟩)],
       [("e1", ⟨"e1", "1", "2", true, 0, 0, []⟩)]⟩
      ⟨[("1", ⟨"1", 0, 0, [], ["e1"]⟩), ("2", ⟨"2", 0, 0, [], ["e1"]⟩)],
       [("e1", ⟨"e1", "1", "2", true, 0, 0, []⟩)]⟩ =
      some (ExtendMapping
        ⟨[("1", ⟨"1", 0, 0, [], ["e1"]⟩), ("2", ⟨"2", 0, 0, [], ["e1"]⟩)],
         [("e1", ⟨"e1", "1", "2", true, 0, 0, []⟩)]⟩
        ⟨[("1", ⟨"1", 0, 0, [], ["e1"]⟩), ("2", ⟨"2", 0, 0, [], ["e1"]⟩)],
         [("e1", ⟨"e1", "1", "2", true, 0, 0, []⟩)]⟩ 1 2 [] 0).1 :=
  (claim_C3 _ _ rfl rfl (by decide)).1

/-! ### Claim C4: temporal ordering -/

theorem dedupAppend_mem {β : Type} (f : β → Int) :
    ∀ (l : List β) (acc : List Int) (x : Int),
      x ∈ dedupAppend f acc l ↔ x ∈ acc ∨ x ∈ l.map f := by
  intro l
  induction l with
  | nil =>
    intro acc x
    simp [dedupAppend]
  | cons b t ih =>
    intro acc x
    simp only [dedupAppend, List.foldl_cons]
    by_cases hm : f b ∈ acc
    · rw [if_pos hm]
      rw [show (t.foldl (fun a c => if f c ∈ a then a else a ++ [f c]) acc) =
        dedupAppend f acc t from rfl, ih acc x]
      simp only [List.map_cons, List.mem_cons]
      constructor
      · tauto
      · rintro (h | rfl | h)
        · exact Or.inl h
        · exact Or.inl hm
        · exact Or.inr h
    · rw [if_neg hm]
      rw [show (t.foldl (fun a c => if f c ∈ a then a else a ++ [f c])
        (acc ++ [f b])) = dedupAppend f (acc ++ [f b]) t from rfl,
        ih (acc ++ [f b]) x]
      simp only [List.mem_append, List.mem_singleton, List.map_cons,
        List.mem_cons]
      tauto

theorem dedupAppend_nodup {β : Type} (f : β → Int) :
    ∀ (l : List β) (acc : List Int), acc.Nodup → (dedupAppend f acc l).Nodup := by
  intro l
  induction l with
  | nil =>
    intro acc h
    simpa [dedupAppend] using h
  | cons b t ih =>
    intro acc h
    simp only [dedupAppend, List.foldl_cons]
    by_cases hm : f b ∈ acc
    · rw [if_pos hm]
      exact ih acc h
    · rw [if_neg hm]
      exact ih _ (by simp [List.nodup_append, h, hm])

theorem collectTimestamps_nodup (g : Graph) : (collectTimestamps g).Nodup :=
  dedupAppend_nodup _ _ _ (dedupAppend_nodup _ _ _ List.nodup_nil)

theorem mem_collectTimestamps (g : Graph) (x : Int) :
    x ∈ collectTimestamps g ↔ x ∈ (entityTs g).map Prod.fst := by
  unfold collectTimestamps entityTs
  rw [dedupAppend_mem, dedupAppend_mem]
  simp only [List.not_mem_nil, false_or, List.map_append, List.mem_append,
    List.map_map]
  constructor
  · rintro (h | h)
    · exact Or.inl (by simpa [Function.comp] using h)
    · exact Or.inr (by simpa [Function.comp] using h)
  · rintro (h | h)
    · exact Or.inl (by simpa [Function.comp] using h)
    · exact Or.inr (by simpa [Function.comp] using h)

theorem sortedTimestamps_sorted (g : Graph) :
    (sortedTimestamps g).Sorted (· ≤ ·) :=
  List.sorted_insertionSort _ _

theorem sortedTimestamps_nodup (g : Graph) : (sortedTimestamps g).Nodup :=
  ((List.perm_insertionSort _ _).nodup_iff).mpr (collectTimestamps_nodup g)

theorem mem_sortedTimestamps (g : Graph) (x : Int) :
    x ∈ sortedTimestamps g ↔ x ∈ (entityTs g).map Prod.fst := by
  unfold sortedTimestamps
  rw [(List.perm_insertionSort (· ≤ ·) (collectTimestamps g)).mem_iff]
  exact mem_collectTimestamps g x

/-- In a sorted duplicate-free list, `indexOf` is strictly monotone on
members. -/
theorem sorted_indexOf_lt {l : List Int} (hs : l.Sorted (· ≤ ·))
    (hn : l.Nodup) {a b : Int} (ha : a ∈ l) (hb : b ∈ l) (hab : a < b) :
    l.indexOf a < l.indexOf b := by
  have hlt : l.Sorted (· < ·) := hs.lt_of_le hn
  have hia : l.indexOf a < l.length := List.indexOf_lt_length.mpr ha
  have hib : l.indexOf b < l.length := List.indexOf_lt_length.mpr hb
  by_contra hcon
  push_neg at hcon
  rcases lt_or_eq_of_le hcon with hlt2 | heq
  · have h2 := hlt.rel_get_of_lt
      (a := ⟨l.indexOf b, hib⟩) (b := ⟨l.indexOf a, hia⟩) (Fin.mk_lt_mk.mpr hlt2)
    rw [List.indexOf_get, List.indexOf_get] at h2
    exact absurd hab (not_lt.mpr h2.le)
  · have h2 : l.get ⟨l.indexOf b, hib⟩ = l.get ⟨l.indexOf a, hia⟩ := by
      congr 1
      exact Fin.ext heq
    rw [List.indexOf_get, List.indexOf_get] at h2
    rw [h2] at hab
    exact lt_irrefl a hab

theorem entityTs_TemporalOrder (g : Graph) :
    entityTs (TemporalOrder g) =
      (entityTs g).map (fun p => (p.1, (sortedTimestamps g).indexOf p.1)) := by
  unfold entityTs TemporalOrder
  simp only [List.map_append, List.map_map]
  rfl

/-- C4: after `TemporalOrder()` the ranks of all vertices and edges are the
positions of their timestamps in the ascending sorted sequence of distinct
timestamps of the graph: the sequence is sorted, duplicate-free and holds
exactly the occurring timestamps; each entity's rank is the index of its
timestamp there; and ranks are strictly monotone in the timestamp, with
equal timestamps sharing a rank. -/
theorem claim_C4 (g : Graph) :
    ((sortedTimestamps g).Sorted (· ≤ ·) ∧ (sortedTimestamps g).Nodup ∧
      ∀ t : Int, t ∈ sortedTimestamps g ↔ t ∈ (entityTs g).map Prod.fst) ∧
    (∀ p ∈ entityTs (TemporalOrder g),
      p.2 = (sortedTimestamps g).indexOf p.1) ∧
    (∀ p ∈ entityTs (TemporalOrder g), ∀ q ∈ entityTs (TemporalOrder g),
      (p.1 < q.1 → p.2 < q.2) ∧ (p.1 = q.1 → p.2 = q.2)) := by
  refine ⟨⟨sortedTimestamps_sorted g, sortedTimestamps_nodup g,
    fun t => mem_sortedTimestamps g t⟩, ?_, ?_⟩
  · intro p hp
    rw [entityTs_TemporalOrder] at hp
    obtain ⟨q, hq, rfl⟩ := List.mem_map.mp hp
    rfl
  · intro p hp q hq
    rw [entityTs_TemporalOrder] at hp hq
    obtain ⟨p0, hp0, rfl⟩ := List.mem_map.mp hp
    obtain ⟨q0, hq0, rfl⟩ := List.mem_map.mp hq
    constructor
    · intro hlt
      exact sorted_indexOf_lt (sortedTimestamps_sorted g)
        (sortedTimestamps_nodup g)
        ((mem_sortedTimestamps g _).mpr (List.mem_map.mpr ⟨p0, hp0, rfl⟩))
        ((mem_sortedTimestamps g _).mpr (List.mem_map.mpr ⟨q0, hq0, rfl⟩))
        hlt
    · intro heq
      simp only at heq ⊢
      rw [heq]

/-- Example graph for the C4 witness. -/
def gTiny : Graph :=
  ⟨[("v1", ⟨"v1", 5, 0, [], ["e1"]⟩), ("v2", ⟨"v2", 3, 0, [], ["e1"]⟩)],
   [("e1", ⟨"e1", "v1", "v2", false, 3, 0, []⟩)]⟩

/-- C4 witness. -/
theorem claim_C4_witness :
    ((3 : Int), (0 : Nat)) ∈ entityTs (TemporalOrder gTiny) ∧
    ((5 : Int), (1 : Nat)) ∈ entityTs (TemporalOrder gTiny) ∧
    ((3 : Int), (0 : Nat)).2 < ((5 : Int), (1 : Nat)).2 :=
  ⟨by decide, by decide,
    ((claim_C4 gTiny).2.2 ((3 : Int), (0 : Nat)) (by decide)
      ((5 : Int), (1 : Nat)) (by decide)).1 (by decide)⟩

/-! ### Matching theory: soundness and completeness of the edge search

`match_e` never reads its mapping argument, so edge compatibility is a fixed
relation between the edges of the two graphs; the backtracking search
succeeds exactly when that relation contains a perfect matching.  Together
with difunctionality of `match_e` this settles both the bounded and the
exhaustive matcher. -/

/-- Invariant of the partial mapping built by the search: distinct keys,
distinct values, and every pair is a compatible `g1`-edge/`g2`-edge pair. -/
def MInv (g1 g2 : Graph) (m : List (String × String)) : Prop :=
  (akeys m).Nodup ∧ (m.map Prod.snd).Nodup ∧
    ∀ p ∈ m, p.1 ∈ akeys g1.es ∧ p.2 ∈ akeys g2.es ∧
      match_e g1 g2 p.1 p.2 [] = true

/-- A perfect matching: a compatible, injective assignment of a `g2`-edge to
every `g1`-edge. -/
def IsPM (g1 g2 : Graph) (σ : String → String) : Prop :=
  (∀ k ∈ akeys g1.es, match_e g1 g2 k (σ k) [] = true ∧ σ k ∈ akeys g2.es) ∧
    ∀ k ∈ akeys g1.es, ∀ k' ∈ akeys g1.es, σ k = σ k' → k = k'

/-- `σ` agrees with every pair of the partial mapping `m`. -/
def MExt (σ : String → String) (m : List (String × String)) : Prop :=
  ∀ p ∈ m, σ p.1 = p.2

theorem MInv_nil (g1 g2 : Graph) : MInv g1 g2 [] := by
  refine ⟨List.nodup_nil, List.nodup_nil, ?_⟩
  intro p hp
  simp at hp

theorem MExt_nil (σ : String → String) : MExt σ [] := by
  intro p hp
  simp at hp

theorem alookup_eq_some_of_mem_keys {α : Type} :
    ∀ (l : List (String × α)) (k : String), k ∈ akeys l →
      ∃ v, alookup l k = some v ∧ (k, v) ∈ l := by
  intro l
  induction l with
  | nil =>
    intro k h
    simp [akeys] at h
  | cons p t ih =>
    intro k h
    by_cases hp : p.1 = k
    · refine ⟨p.2, ?_, ?_⟩
      · simp [alookup, List.find?, hp]
      · subst hp
        exact List.mem_cons_self _ _
    · have hk : k ∈ akeys t := by
        simpa [akeys, hp, Ne.symm, eq_comm] using h
      obtain ⟨v, hv, hm⟩ := ih k hk
      exact ⟨v, by simp [alookup, List.find?, hp] at hv ⊢; exact hv,
        List.mem_cons_of_mem _ hm⟩

theorem alookup_of_mem_nodup {α : Type} :
    ∀ {l : List (String × α)}, (akeys l).Nodup →
      ∀ {k : String} {v : α}, (k, v) ∈ l → alookup l k = some v := by
  intro l
  induction l with
  | nil =>
    intro _ k v h
    simp at h
  | cons p t ih =>
    intro hN k v h
    rcases List.mem_cons.mp h with rfl | hmem
    · simp [alookup, List.find?]
    · have hN' : (akeys t).Nodup := (List.nodup_cons.mp hN).2
      have hp : p.1 ≠ k := by
        intro hc
        have : k ∈ akeys t := List.mem_map.mpr ⟨(k, v), hmem, rfl⟩
        exact (List.nodup_cons.mp hN).1 (hc ▸ this)
      have hd : (decide (p.1 = k)) = false := by simp [hp]
      simp only [alookup, List.find?, hd]
      exact ih hN' hmem

/-- Extending the partial mapping by a fresh compatible pair preserves the
mapping invariant. -/
theorem MInv_extend (g1 g2 : Graph) (m : List (String × String))
    (e1 e2 : String) (hm : MInv g1 g2 m) (h1 : e1 ∈ akeys g1.es)
    (h2 : e2 ∈ akeys g2.es) (hk : e1 ∉ akeys m) (hv : e2 ∉ m.map Prod.snd)
    (hc : match_e g1 g2 e1 e2 [] = true) :
    MInv g1 g2 (m ++ [(e1, e2)]) := by
  obtain ⟨hN1, hN2, hall⟩ := hm
  refine ⟨?_, ?_, ?_⟩
  · have hkeys : akeys (m ++ [(e1, e2)]) = akeys m ++ [e1] := by
      simp [akeys]
    rw [hkeys, List.nodup_append]
    refine ⟨hN1, List.nodup_singleton _, ?_⟩
    intro a ha hb
    rcases List.mem_singleton.mp hb with rfl
    exact hk ha
  · have hvals : (m ++ [(e1, e2)]).map Prod.snd = m.map Prod.snd ++ [e2] := by
      simp
    rw [hvals, List.nodup_append]
    refine ⟨hN2, List.nodup_singleton _, ?_⟩
    intro a ha hb
    rcases List.mem_singleton.mp hb with rfl
    exact hv ha
  · intro p hp
    rcases List.mem_append.mp hp with hp | hp
    · exact hall p hp
    · rcases List.mem_singleton.mp hp with rfl
      exact ⟨h1, h2, hc⟩

/-- A complete invariant-respecting mapping yields a perfect matching. -/
theorem exists_PM_of_complete (g1 g2 : Graph) (m : List (String × String))
    (hm : MInv g1 g2 m) (hlen : m.length = g1.es.length)
    (hN1 : (akeys g1.es).Nodup) : ∃ σ, IsPM g1 g2 σ := by
  obtain ⟨hkN, hvN, hall⟩ := hm
  have hsub : akeys m ⊆ akeys g1.es := by
    intro k hk
    obtain ⟨p, hp, rfl⟩ := List.mem_map.mp hk
    exact (hall p hp).1
  have hperm : List.Perm (akeys m) (akeys g1.es) := by
    refine (hkN.subperm hsub).perm_of_length_le ?_
    simp [akeys, hlen]
  refine ⟨fun k => (alookup m k).getD k, ?_, ?_⟩
  · intro k hk
    have hkm : k ∈ akeys m := hperm.symm.subset hk
    obtain ⟨v, hfound, hmem⟩ := alookup_eq_some_of_mem_keys m k hkm
    dsimp only
    rw [hfound]
    exact ⟨(hall (k, v) hmem).2.2, (hall (k, v) hmem).2.1⟩
  · intro k hk k' hk' heq
    have hkm : k ∈ akeys m := hperm.symm.subset hk
    have hkm' : k' ∈ akeys m := hperm.symm.subset hk'
    obtain ⟨v, hfound, hmem⟩ := alookup_eq_some_of_mem_keys m k hkm
    obtain ⟨v', hfound', hmem'⟩ := alookup_eq_some_of_mem_keys m k' hkm'
    dsimp only at heq
    rw [hfound, hfound'] at heq
    simp only [Option.getD_some] at heq
    subst heq
    have := List.inj_on_of_nodup_map hvN hmem hmem' rfl
    exact congrArg Prod.fst this

/-- Exchange argument: when the search commits the first unmapped edge `e1`
to any compatible unused `e2`, difunctionality of `match_e` repairs a given
perfect matching into one that extends the enlarged partial mapping. -/
theorem PM_exchange (g1 g2 : Graph) (σ : String → String)
    (m : List (String × String)) (e1 e2 : String) (hPM : IsPM g1 g2 σ)
    (hExt : MExt σ m) (hm : MInv g1 g2 m) (he1k : e1 ∈ akeys g1.es)
    (he1 : e1 ∉ akeys m) (he2k : e2 ∈ akeys g2.es)
    (he2 : e2 ∉ m.map Prod.snd) (hc : match_e g1 g2 e1 e2 [] = true) :
    ∃ σ', IsPM g1 g2 σ' ∧ MExt σ' (m ++ [(e1, e2)]) := by
  obtain ⟨hcomp, hinj⟩ := hPM
  refine ⟨fun x => if x = e1 then e2 else if σ x = e2 then σ e1 else σ x,
    ⟨?_, ?_⟩, ?_⟩
  · intro k hk
    by_cases hk1 : k = e1
    · subst hk1
      simp only [if_pos rfl]
      exact ⟨hc, he2k⟩
    · simp only [if_neg hk1]
      by_cases hk2 : σ k = e2
      · simp only [if_pos hk2]
        refine ⟨?_, (hcomp e1 he1k).2⟩
        exact match_e_difun g1 g2 k e2 e1 (σ e1)
          (hk2 ▸ (hcomp k hk).1) hc (hcomp e1 he1k).1
      · simp only [if_neg hk2]
        exact hcomp k hk
  · intro k hk k' hk' heq
    dsimp only at heq
    by_cases hk1 : k = e1 <;> by_cases hk2 : k' = e1
    · rw [hk1, hk2]
    · rw [if_pos hk1, if_neg hk2] at heq
      by_cases h3 : σ k' = e2
      · rw [if_pos h3] at heq
        exact absurd (hinj k' hk' e1 he1k (h3.trans heq)) hk2
      · rw [if_neg h3] at heq
        exact absurd heq.symm h3
    · rw [if_neg hk1, if_pos hk2] at heq
      by_cases h3 : σ k = e2
      · rw [if_pos h3] at heq
        exact absurd (hinj k hk e1 he1k (h3.trans heq.symm)) hk1
      · rw [if_neg h3] at heq
        exact absurd heq h3
    · simp only [if_neg hk1, if_neg hk2] at heq
      by_cases h3 : σ k = e2 <;> by_cases h4 : σ k' = e2
      · exact hinj k hk k' hk' (h3.trans h4.symm)
      · rw [if_pos h3, if_neg h4] at heq
        exact absurd (hinj e1 he1k k' hk' heq) (Ne.symm hk2)
      · rw [if_neg h3, if_pos h4] at heq
        exact absurd (hinj k hk e1 he1k heq) hk1
      · rw [if_neg h3, if_neg h4] at heq
        exact hinj k hk k' hk' heq
  · intro p hp
    rcases List.mem_append.mp hp with hp | hp
    · have hne1 : p.1 ≠ e1 := by
        intro hcge
        exact he1 (hcge ▸ List.mem_map.mpr ⟨p, hp, rfl⟩)
      have hne2 : σ p.1 ≠ e2 := by
        rw [hExt p hp]
        intro hcge
        exact he2 (hcge ▸ List.mem_map.mpr ⟨p, hp, rfl⟩)
      simp only [if_neg hne1, if_neg hne2]
      exact hExt p hp
    · rcases List.mem_singleton.mp hp with rfl
      simp

theorem MInv_length_le (g1 g2 : Graph) (m : List (String × String))
    (hm : MInv g1 g2 m) (hN1 : (akeys g1.es).Nodup) :
    m.length ≤ g1.es.length := by
  have hsub : akeys m ⊆ akeys g1.es := by
    intro k hk
    obtain ⟨p, hp, rfl⟩ := List.mem_map.mp hk
    exact (hm.2.2 p hp).1
  have h := (hm.1.subperm hsub).length_le
  simpa [akeys] using h

/-- The mapping invariant is preserved by the inner loop, given that the
recursive call preserves it. -/
theorem EMloop_MInv (g1 g2 : Graph)
    (rec : List (String × String) → Nat → Bool × Nat × List (String × String))
    (hrec : ∀ m n, MInv g1 g2 m → MInv g1 g2 (rec m n).2.2)
    (e1 : String) (he1k : e1 ∈ akeys g1.es) :
    ∀ (cands : List String) (m : List (String × String)) (n : Nat),
      (∀ x ∈ cands, x ∈ akeys g2.es) → MInv g1 g2 m → e1 ∉ akeys m →
      MInv g1 g2 (EMloop g1 g2 rec e1 cands m n).2.2 := by
  intro cands
  induction cands with
  | nil =>
    intro m n _ hm _
    simpa [EMloop] using hm
  | cons e2 rest ih =>
    intro m n hcands hm he1
    simp only [EMloop]
    split_ifs with h1 h2
    · exact ih m n (fun x hx => hcands x (List.mem_cons_of_mem _ hx)) hm he1
    · rcases hr : rec (m ++ [(e1, e2)]) (n + 1) with ⟨b, n2, m2⟩
      cases b with
      | false =>
        dsimp only
        exact ih m n2 (fun x hx => hcands x (List.mem_cons_of_mem _ hx)) hm he1
      | true =>
        dsimp only
        have hm1 : MInv g1 g2 (m ++ [(e1, e2)]) :=
          MInv_extend g1 g2 m e1 e2 hm he1k
            (hcands e2 (List.mem_cons_self _ _)) he1 h1 h2
        have hres := hrec (m ++ [(e1, e2)]) (n + 1) hm1
        rw [hr] at hres
        exact hres
    · exact ih m n (fun x hx => hcands x (List.mem_cons_of_mem _ hx)) hm he1

/-- The mapping invariant is preserved by `ExtendMapping`. -/
theorem ExtendMapping_MInv (g1 g2 : Graph) (budget : Nat) :
    ∀ (fuel : Nat) (m : List (String × String)) (n : Nat), MInv g1 g2 m →
      MInv g1 g2 (ExtendMapping g1 g2 budget fuel m n).2.2 := by
  intro fuel
  induction fuel with
  | zero =>
    intro m n hm
    simpa [ExtendMapping] using hm
  | succ fuel ih =>
    intro m n hm
    simp only [ExtendMapping]
    split_ifs with h1 h2
    · simpa using hm
    · simpa using hm
    · cases hf : (akeys g1.es).find? (fun k => decide (k ∉ akeys m)) with
      | none => simpa using hm
      | some e1 =>
        have hmem := List.mem_of_find?_eq_some hf
        have he1 : e1 ∉ akeys m := by simpa using List.find?_some hf
        exact EMloop_MInv g1 g2 _ (fun m' n' hm' => ih m' n' hm') e1 hmem
          (akeys g2.es) m n (fun x hx => hx) hm he1

/-- Greedy success of the inner loop: if a perfect matching extends the
current mapping and the first unmapped edge is `e1`, committing `e1` to the
first compatible unused candidate still succeeds, in exactly one recursive
call per remaining edge. -/
theorem EMloop_greedy (g1 g2 : Graph) (budget fuel : Nat)
    (hrecG : ∀ (m : List (String × String)) (n : Nat) (σ : String → String),
      MInv g1 g2 m → IsPM g1 g2 σ → MExt σ m →
      g1.es.length < m.length + fuel →
      n + (g1.es.length - m.length) ≤ budget + 1 →
      ∃ m', ExtendMapping g1 g2 budget fuel m n =
        (true, n + (g1.es.length - m.length), m'))
    (e1 : String) (he1k : e1 ∈ akeys g1.es) :
    ∀ (cands : List String) (m : List (String × String)) (n : Nat)
      (σ : String → String),
      (∀ x ∈ cands, x ∈ akeys g2.es) → MInv g1 g2 m → IsPM g1 g2 σ →
      MExt σ m → e1 ∉ akeys m → σ e1 ∈ cands → m.length < g1.es.length →
      g1.es.length < m.length + 1 + fuel →
      n + (g1.es.length - m.length) ≤ budget + 1 →
      ∃ m', EMloop g1 g2 (ExtendMapping g1 g2 budget fuel) e1 cands m n =
        (true, n + (g1.es.length - m.length), m') := by
  intro cands
  induction cands with
  | nil =>
    intro m n σ _ _ _ _ _ hσe1 _ _ _
    simp at hσe1
  | cons e2 rest ih =>
    intro m n σ hcands hm hPM hExt he1 hσe1 hlt hfuel hbud
    simp only [EMloop]
    split_ifs with h1 h2
    · have hne : σ e1 ≠ e2 := by
        intro hcge
        rcases List.mem_map.mp (hcge ▸ h1) with ⟨p, hp, hp2⟩
        have hp1k : p.1 ∈ akeys g1.es := (hm.2.2 p hp).1
        have hpe : p.1 = e1 :=
          hPM.2 p.1 hp1k e1 he1k (by rw [hExt p hp]; exact hp2)
        exact he1 (hpe ▸ List.mem_map.mpr ⟨p, hp, rfl⟩)
      have hσrest : σ e1 ∈ rest := by
        rcases List.mem_cons.mp hσe1 with h | h
        · exact absurd h hne
        · exact h
      exact ih m n σ (fun x hx => hcands x (List.mem_cons_of_mem _ hx)) hm hPM
        hExt he1 hσrest hlt hfuel hbud
    · have he2k : e2 ∈ akeys g2.es := hcands e2 (List.mem_cons_self _ _)
      obtain ⟨σ', hPM', hExt'⟩ :=
        PM_exchange g1 g2 σ m e1 e2 hPM hExt hm he1k he1 he2k h1 h2
      have hm1 : MInv g1 g2 (m ++ [(e1, e2)]) :=
        MInv_extend g1 g2 m e1 e2 hm he1k he2k he1 h1 h2
      have hlen1 : (m ++ [(e1, e2)]).length = m.length + 1 := by simp
      obtain ⟨m', hm'⟩ := hrecG (m ++ [(e1, e2)]) (n + 1) σ' hm1 hPM' hExt'
        (by rw [hlen1]; omega) (by rw [hlen1]; omega)
      rw [hlen1] at hm'
      rw [hm']
      dsimp only
      refine ⟨m', ?_⟩
      have harith : n + 1 + (g1.es.length - (m.length + 1)) =
          n + (g1.es.length - m.length) := by omega
      rw [harith]
    · have hne : σ e1 ≠ e2 := by
        intro hcge
        have hcompat := (hPM.1 e1 he1k).1
        rw [hcge] at hcompat
        exact h2 hcompat
      have hσrest : σ e1 ∈ rest := by
        rcases List.mem_cons.mp hσe1 with h | h
        · exact absurd h hne
        · exact h
      exact ih m n σ (fun x hx => hcands x (List.mem_cons_of_mem _ hx)) hm hPM
        hExt he1 hσrest hlt hfuel hbud

/-- Greedy success of `ExtendMapping`: a perfect matching extending the
current mapping guarantees success with exactly one attempt per remaining
edge, provided the attempts stay within the budget. -/
theorem ExtendMapping_greedy (g1 g2 : Graph) (budget : Nat)
    (hN1 : (akeys g1.es).Nodup) :
    ∀ (fuel : Nat) (m : List (String × String)) (n : Nat)
      (σ : String → String),
      MInv g1 g2 m → IsPM g1 g2 σ → MExt σ m →
      g1.es.length < m.length + fuel →
      n + (g1.es.length - m.length) ≤ budget + 1 →
      ∃ m', ExtendMapping g1 g2 budget fuel m n =
        (true, n + (g1.es.length - m.length), m') := by
  intro fuel
  induction fuel with
  | zero =>
    intro m n σ hm _ _ hfuel _
    have hle := MInv_length_le g1 g2 m hm hN1
    omega
  | succ fuel ih =>
    intro m n σ hm hPM hExt hfuel hbud
    simp only [ExtendMapping]
    by_cases hdone : m.length = g1.es.length
    · rw [if_pos hdone]
      refine ⟨m, ?_⟩
      rw [hdone, Nat.sub_self, Nat.add_zero]
    · rw [if_neg hdone]
      have hle := MInv_length_le g1 g2 m hm hN1
      have hlt : m.length < g1.es.length := lt_of_le_of_ne hle hdone
      rw [if_neg (by omega : ¬ n > budget)]
      have hfind : ((akeys g1.es).find? (fun k => decide (k ∉ akeys m))).isSome := by
        rw [List.find?_isSome]
        have hex : ∃ k, k ∈ akeys g1.es ∧ k ∉ akeys m := by
          by_contra hcon
          push_neg at hcon
          have hsub : akeys g1.es ⊆ akeys m := fun k hk => hcon k hk
          have hlen := (hN1.subperm hsub).length_le
          simp only [akeys, List.length_map] at hlen
          omega
        obtain ⟨k, hk1, hk2⟩ := hex
        exact ⟨k, hk1, by simpa using hk2⟩
      obtain ⟨e1, hfe⟩ := Option.isSome_iff_exists.mp hfind
      rw [hfe]
      have he1k := List.mem_of_find?_eq_some hfe
      have he1m : e1 ∉ akeys m := by simpa using List.find?_some hfe
      have hσk : σ e1 ∈ akeys g2.es := (hPM.1 e1 he1k).2
      exact EMloop_greedy g1 g2 budget fuel ih e1 he1k (akeys g2.es) m n σ
        (fun x hx => hx) hm hPM hExt he1m hσk hlt (by omega) hbud

/-- Success of the exhaustive inner loop implies a complete mapping. -/
theorem EMOloop_true_length (g1 g2 : Graph)
    (rec : List (String × String) → Bool × List (String × String))
    (e1 : String)
    (hrec : ∀ m m', rec m = (true, m') → m'.length = g1.es.length) :
    ∀ (cands : List String) (m m' : List (String × String)),
      EMOloop g1 g2 rec e1 cands m = (true, m') →
        m'.length = g1.es.length := by
  intro cands
  induction cands with
  | nil =>
    intro m m' h
    simp [EMOloop] at h
  | cons e2 rest ih =>
    intro m m' h
    simp only [EMOloop] at h
    split_ifs at h with h1 h2
    · exact ih m m' h
    · rcases hr : rec (m ++ [(e1, e2)]) with ⟨b, m2⟩
      rw [hr] at h
      cases b with
      | true =>
        simp only at h
        obtain ⟨-, rfl⟩ : true = true ∧ m2 = m' := by
          simpa [Prod.ext_iff] using h
        exact hrec _ _ hr
      | false =>
        simp only at h
        exact ih m m' h
    · exact ih m m' h

/-- `ExtendMapping_Orig` reports success only with a complete mapping. -/
theorem ExtendMapping_Orig_true_length (g1 g2 : Graph) :
    ∀ (fuel : Nat) (m m' : List (String × String)),
      ExtendMapping_Orig g1 g2 fuel m = (true, m') →
        m'.length = g1.es.length := by
  intro fuel
  induction fuel with
  | zero =>
    intro m m' h
    simp [ExtendMapping_Orig] at h
  | succ fuel ih =>
    intro m m' h
    simp only [ExtendMapping_Orig] at h
    split_ifs at h with h1
    · obtain ⟨-, rfl⟩ : true = true ∧ m = m' := by
        simpa [Prod.ext_iff] using h
      exact h1
    · cases hf : (akeys g1.es).find? (fun k => decide (k ∉ akeys m)) with
      | none =>
        rw [hf] at h
        simp [Prod.ext_iff] at h
      | some e1 =>
        rw [hf] at h
        exact EMOloop_true_length g1 g2 _ e1 (fun a b hh => ih a b hh)
          (akeys g2.es) m m' h

/-- The mapping invariant is preserved by the exhaustive inner loop. -/
theorem EMOloop_MInv (g1 g2 : Graph)
    (rec : List (String × String) → Bool × List (String × String))
    (hrec : ∀ m, MInv g1 g2 m → MInv g1 g2 (rec m).2)
    (e1 : String) (he1k : e1 ∈ akeys g1.es) :
    ∀ (cands : List String) (m : List (String × String)),
      (∀ x ∈ cands, x ∈ akeys g2.es) → MInv g1 g2 m → e1 ∉ akeys m →
      MInv g1 g2 (EMOloop g1 g2 rec e1 cands m).2 := by
  intro cands
  induction cands with
  | nil =>
    intro m _ hm _
    simpa [EMOloop] using hm
  | cons e2 rest ih =>
    intro m hcands hm he1
    simp only [EMOloop]
    split_ifs with h1 h2
    · exact ih m (fun x hx => hcands x (List.mem_cons_of_mem _ hx)) hm he1
    · rcases hr : rec (m ++ [(e1, e2)]) with ⟨b, m2⟩
      cases b with
      | false =>
        dsimp only
        exact ih m (fun x hx => hcands x (List.mem_cons_of_mem _ hx)) hm he1
      | true =>
        dsimp only
        have hm1 : MInv g1 g2 (m ++ [(e1, e2)]) :=
          MInv_extend g1 g2 m e1 e2 hm he1k
            (hcands e2 (List.mem_cons_self _ _)) he1 h1 h2
        have hres := hrec (m ++ [(e1, e2)]) hm1
        rw [hr] at hres
        exact hres
    · exact ih m (fun x hx => hcands x (List.mem_cons_of_mem _ hx)) hm he1

/-- The mapping invariant is preserved by `ExtendMapping_Orig`. -/
theorem ExtendMapping_Orig_MInv (g1 g2 : Graph) :
    ∀ (fuel : Nat) (m : List (String × String)), MInv g1 g2 m →
      MInv g1 g2 (ExtendMapping_Orig g1 g2 fuel m).2 := by
  intro fuel
  induction fuel with
  | zero =>
    intro m hm
    simpa [ExtendMapping_Orig] using hm
  | succ fuel ih =>
    intro m hm
    simp only [ExtendMapping_Orig]
    split_ifs with h1
    · simpa using hm
    · cases hf : (akeys g1.es).find? (fun k => decide (k ∉ akeys m)) with
      | none => simpa using hm
      | some e1 =>
        have hmem := List.mem_of_find?_eq_some hf
        have he1 : e1 ∉ akeys m := by simpa using List.find?_some hf
        exact EMOloop_MInv g1 g2 _ (fun m' hm' => ih m' hm') e1 hmem
          (akeys g2.es) m (fun x hx => hx) hm he1

/-- Greedy success of the exhaustive inner loop. -/
theorem EMOloop_greedy (g1 g2 : Graph) (fuel : Nat)
    (hrecG : ∀ (m : List (String × String)) (σ : String → String),
      MInv g1 g2 m → IsPM g1 g2 σ → MExt σ m →
      g1.es.length < m.length + fuel →
      ∃ m', ExtendMapping_Orig g1 g2 fuel m = (true, m'))
    (e1 : String) (he1k : e1 ∈ akeys g1.es) :
    ∀ (cands : List String) (m : List (String × String))
      (σ : String → String),
      (∀ x ∈ cands, x ∈ akeys g2.es) → MInv g1 g2 m → IsPM g1 g2 σ →
      MExt σ m → e1 ∉ akeys m → σ e1 ∈ cands → m.length < g1.es.length →
      g1.es.length < m.length + 1 + fuel →
      ∃ m', EMOloop g1 g2 (ExtendMapping_Orig g1 g2 fuel) e1 cands m =
        (true, m') := by
  intro cands
  induction cands with
  | nil =>
    intro m σ _ _ _ _ _ hσe1 _ _
    simp at hσe1
  | cons e2 rest ih =>
    intro m σ hcands hm hPM hExt he1 hσe1 hlt hfuel
    simp only [EMOloop]
    split_ifs with h1 h2
    · have hne : σ e1 ≠ e2 := by
        intro hcge
        rcases List.mem_map.mp (hcge ▸ h1) with ⟨p, hp, hp2⟩
        have hp1k : p.1 ∈ akeys g1.es := (hm.2.2 p hp).1
        have hpe : p.1 = e1 :=
          hPM.2 p.1 hp1k e1 he1k (by rw [hExt p hp]; exact hp2)
        exact he1 (hpe ▸ List.mem_map.mpr ⟨p, hp, rfl⟩)
      have hσrest : σ e1 ∈ rest := by
        rcases List.mem_cons.mp hσe1 with h | h
        · exact absurd h hne
        · exact h
      exact ih m σ (fun x hx => hcands x (List.mem_cons_of_mem _ hx)) hm hPM
        hExt he1 hσrest hlt hfuel
    · have he2k : e2 ∈ akeys g2.es := hcands e2 (List.mem_cons_self _ _)
      obtain ⟨σ', hPM', hExt'⟩ :=
        PM_exchange g1 g2 σ m e1 e2 hPM hExt hm he1k he1 he2k h1 h2
      have hm1 : MInv g1 g2 (m ++ [(e1, e2)]) :=
        MInv_extend g1 g2 m e1 e2 hm he1k he2k he1 h1 h2
      have hlen1 : (m ++ [(e1, e2)]).length = m.length + 1 := by simp
      obtain ⟨m', hm'⟩ := hrecG (m ++ [(e1, e2)]) σ' hm1 hPM' hExt'
        (by rw [hlen1]; omega)
      rw [hm']
      dsimp only
      exact ⟨m', rfl⟩
    · have hne : σ e1 ≠ e2 := by
        intro hcge
        have hcompat := (hPM.1 e1 he1k).1
        rw [hcge] at hcompat
        exact h2 hcompat
      have hσrest : σ e1 ∈ rest := by
        rcases List.mem_cons.mp hσe1 with h | h
        · exact absurd h hne
        · exact h
      exact ih m σ (fun x hx => hcands x (List.mem_cons_of_mem _ hx)) hm hPM
        hExt he1 hσrest hlt hfuel

/-- Greedy success of `ExtendMapping_Orig`. -/
theorem ExtendMapping_Orig_greedy (g1 g2 : Graph)
    (hN1 : (akeys g1.es).Nodup) :
    ∀ (fuel : Nat) (m : List (String × String)) (σ : String → String),
      MInv g1 g2 m → IsPM g1 g2 σ → MExt σ m →
      g1.es.length < m.length + fuel →
      ∃ m', ExtendMapping_Orig g1 g2 fuel m = (true, m') := by
  intro fuel
  induction fuel with
  | zero =>
    intro m σ hm _ _ hfuel
    have hle := MInv_length_le g1 g2 m hm hN1
    omega
  | succ fuel ih =>
    intro m σ hm hPM hExt hfuel
    simp only [ExtendMapping_Orig]
    by_cases hdone : m.length = g1.es.length
    · rw [if_pos hdone]
      exact ⟨m, rfl⟩
    · rw [if_neg hdone]
      have hle := MInv_length_le g1 g2 m hm hN1
      have hlt : m.length < g1.es.length := lt_of_le_of_ne hle hdone
      have hfind : ((akeys g1.es).find? (fun k => decide (k ∉ akeys m))).isSome := by
        rw [List.find?_isSome]
        have hex : ∃ k, k ∈ akeys g1.es ∧ k ∉ akeys m := by
          by_contra hcon
          push_neg at hcon
          have hsub : akeys g1.es ⊆ akeys m := fun k hk => hcon k hk
          have hlen := (hN1.subperm hsub).length_le
          simp only [akeys, List.length_map] at hlen
          omega
        obtain ⟨k, hk1, hk2⟩ := hex
        exact ⟨k, hk1, by simpa using hk2⟩
      obtain ⟨e1, hfe⟩ := Option.isSome_iff_exists.mp hfind
      rw [hfe]
      have he1k := List.mem_of_find?_eq_some hfe
      have he1m : e1 ∉ akeys m := by simpa using List.find?_some hfe
      have hσk : σ e1 ∈ akeys g2.es := (hPM.1 e1 he1k).2
      exact EMOloop_greedy g1 g2 fuel ih e1 he1k (akeys g2.es) m σ
        (fun x hx => hx) hm hPM hExt he1m hσk hlt (by omega)

/-- The bounded search from the top-level call succeeds iff a perfect
compatible matching exists: the budget `E^2` is never the binding constraint
for the greedy successful branch, which needs only `E` attempts. -/
theorem ExtendMapping_top_true_iff (g1 g2 : Graph)
    (hN1 : (akeys g1.es).Nodup) :
    (ExtendMapping g1 g2 (g1.es.length ^ 2) (g1.es.length + 1) [] 0).1 = true
      ↔ ∃ σ, IsPM g1 g2 σ := by
  constructor
  · intro h
    rcases hr : ExtendMapping g1 g2 (g1.es.length ^ 2) (g1.es.length + 1) [] 0
      with ⟨b, n', m'⟩
    rw [hr] at h
    simp only at h
    subst h
    have hMInv := ExtendMapping_MInv g1 g2 (g1.es.length ^ 2)
      (g1.es.length + 1) [] 0 (MInv_nil g1 g2)
    rw [hr] at hMInv
    have hlen := ExtendMapping_true_length g1 g2 (g1.es.length ^ 2)
      (g1.es.length + 1) [] 0 n' m' hr
    exact exists_PM_of_complete g1 g2 m' hMInv hlen hN1
  · rintro ⟨σ, hσ⟩
    obtain ⟨m', hm'⟩ := ExtendMapping_greedy g1 g2 (g1.es.length ^ 2) hN1
      (g1.es.length + 1) [] 0 σ (MInv_nil g1 g2) hσ (MExt_nil σ)
      (by simp)
      (by
        simp only [List.length_nil, Nat.sub_zero, Nat.zero_add]
        exact le_trans (Nat.le_self_pow (by norm_num) _) (Nat.le_succ _))
    rw [hm']

/-- The exhaustive search from the top-level call succeeds iff a perfect
compatible matching exists. -/
theorem ExtendMapping_Orig_top_true_iff (g1 g2 : Graph)
    (hN1 : (akeys g1.es).Nodup) :
    (ExtendMapping_Orig g1 g2 (g1.es.length + 1) []).1 = true
      ↔ ∃ σ, IsPM g1 g2 σ := by
  constructor
  · intro h
    rcases hr : ExtendMapping_Orig g1 g2 (g1.es.length + 1) [] with ⟨b, m'⟩
    rw [hr] at h
    simp only at h
    subst h
    have hMInv := ExtendMapping_Orig_MInv g1 g2 (g1.es.length + 1) []
      (MInv_nil g1 g2)
    rw [hr] at hMInv
    have hlen := ExtendMapping_Orig_true_length g1 g2 (g1.es.length + 1) [] m' hr
    exact exists_PM_of_complete g1 g2 m' hMInv hlen hN1
  · rintro ⟨σ, hσ⟩
    obtain ⟨m', hm'⟩ := ExtendMapping_Orig_greedy g1 g2 hN1
      (g1.es.length + 1) [] σ (MInv_nil g1 g2) hσ (MExt_nil σ) (by simp)
    rw [hm']

/-- The identity assignment is a perfect matching of any graph with itself. -/
theorem IsPM_id (g : Graph) : IsPM g g id := by
  constructor
  · intro k hk
    refine ⟨?_, hk⟩
    rw [match_e_true_iff]
    exact ⟨rfl, rfl, rfl,
      Or.inl ⟨(match_v_true_iff _ _ _ _).mpr rfl, (match_v_true_iff _ _ _ _).mpr rfl⟩⟩
  · intro k _ k' _ h
    exact h

/-- C2: on any two graphs with duplicate-free edge ids — in particular all
graphs with at most 6 edges — the bounded matcher `match_g` and the exact
matcher `match_g_Orig` return the same result: whenever the edge
compatibility relation admits a perfect matching, the greedy first branch of
the bounded search already succeeds within `E ≤ E^2` attempts, and when it
admits none both searches fail. -/
theorem claim_C2 (g1 g2 : Graph) (hN1 : (akeys g1.es).Nodup)
    (hN2 : (akeys g2.es).Nodup) (hle1 : g1.es.length ≤ 6)
    (hle2 : g2.es.length ≤ 6) :
    match_g g1 g2 = match_g_Orig g1 g2 := by
  unfold match_g match_g_Orig
  by_cases hv : g1.vs.length = g2.vs.length
  · by_cases he : g1.es.length = g2.es.length
    · rw [if_neg (show ¬(g1.vs.length ≠ g2.vs.length ∨
          g1.es.length ≠ g2.es.length) from by push_neg; exact ⟨hv, he⟩),
        if_neg (show ¬(g1.vs.length ≠ g2.vs.length) from by
          push_neg; exact hv),
        if_neg (show ¬(g1.es.length ≠ g2.es.length) from by
          push_neg; exact he)]
      by_cases h0 : g1.es.length = 0
      · rw [if_pos h0, if_pos h0]
      · rw [if_neg h0, if_neg h0]
        congr 1
        rw [Bool.eq_iff_iff, ExtendMapping_top_true_iff g1 g2 hN1,
          ExtendMapping_Orig_top_true_iff g1 g2 hN1]
    · rw [if_pos (show g1.vs.length ≠ g2.vs.length ∨
          g1.es.length ≠ g2.es.length from Or.inr he),
        if_neg (show ¬(g1.vs.length ≠ g2.vs.length) from by
          push_neg; exact hv),
        if_pos (show g1.es.length ≠ g2.es.length from he)]
  · rw [if_pos (show g1.vs.length ≠ g2.vs.length ∨
        g1.es.length ≠ g2.es.length from Or.inl hv),
      if_pos (show g1.vs.length ≠ g2.vs.length from hv)]

/-- C2 witness. -/
theorem claim_C2_witness :
    match_g
      ⟨[("1", ⟨"1", 0, 0, [], ["e1"]⟩), ("2", ⟨"2", 0, 0, [], ["e1"]⟩)],
       [("e1", ⟨"e1", "1", "2", true, 0, 0, []⟩)]⟩
      ⟨[("x", ⟨"x", 0, 0, [], ["ex"]⟩), ("y", ⟨"y", 0, 0, [], ["ex"]⟩)],
       [("ex", ⟨"ex", "x", "y", false, 0, 0, []⟩)]⟩ =
    match_g_Orig
      ⟨[("1", ⟨"1", 0, 0, [], ["e1"]⟩), ("2", ⟨"2", 0, 0, [], ["e1"]⟩)],
       [("e1", ⟨"e1", "1", "2", true, 0, 0, []⟩)]⟩
      ⟨[("x", ⟨"x", 0, 0, [], ["ex"]⟩), ("y", ⟨"y", 0, 0, [], ["ex"]⟩)],
       [("ex", ⟨"ex", "x", "y", false, 0, 0, []⟩)]⟩ :=
  claim_C2 _ _ (by decide) (by decide) (by decide) (by decide)

theorem akeys_TemporalOrder_es (g : Graph) :
    akeys (TemporalOrder g).es = akeys g.es := by
  simp [TemporalOrder, akeys, List.map_map]

/-- C8 counterexample: on the empty graph (on which `TemporalOrder` is a
no-op) `match_g(g, g)` does not return `True` — the degenerate zero-edge
branch indexes into an empty vertex-key list and fails (`none` models the
`IndexError`). -/
theorem claim_C8_counterexample :
    match_g (TemporalOrder ⟨[], []⟩) (TemporalOrder ⟨[], []⟩) = none := by
  decide

/-- C8 amended: for every graph with at least one vertex (and duplicate-free
edge ids, as Python dicts guarantee), `match_g(g, g)` returns `True` after
`TemporalOrder()`: the identity edge mapping is a perfect matching and the
greedy search finds one within the `E^2` budget.  The empty graph instead
raises an `IndexError`. -/
theorem claim_C8 (g : Graph) (hne : g.vs ≠ []) (hN : (akeys g.es).Nodup) :
    match_g (TemporalOrder g) (TemporalOrder g) = some true := by
  have hN' : (akeys (TemporalOrder g).es).Nodup := by
    rw [akeys_TemporalOrder_es]
    exact hN
  have hvne : (TemporalOrder g).vs ≠ [] := by
    intro h
    exact hne (List.map_eq_nil_iff.mp h)
  unfold match_g
  rw [if_neg (by push_neg; exact ⟨rfl, rfl⟩)]
  by_cases h0 : (TemporalOrder g).es.length = 0
  · rw [if_pos h0]
    have hk : akeys (TemporalOrder g).vs ≠ [] := by
      intro h
      exact hvne (List.map_eq_nil_iff.mp h)
    rw [head?_eq_headD _ "" hk]
    dsimp only
    rw [(match_v_true_iff _ _ _ _).mpr rfl]
  · rw [if_neg h0]
    rw [(ExtendMapping_top_true_iff (TemporalOrder g) (TemporalOrder g) hN').mpr
      ⟨id, IsPM_id (TemporalOrder g)⟩]

/-- C8 witness. -/
theorem claim_C8_witness :
    match_g (TemporalOrder gTiny) (TemporalOrder gTiny) = some true :=
  claim_C8 gTiny (by decide) (by decide)

/-! ### Claim C10: the matcher leaves both graphs unchanged

The state-threaded translations return, along with the pure result, the
graph states they finished with; every function is shown to return its input
graphs, so no call mutates either graph. -/

theorem EMloop_st_eq
    (rec_st : Graph → Graph → List (String × String) → Nat →
      Bool × Nat × List (String × String) × Graph × Graph)
    (rec : List (String × String) → Nat → Bool × Nat × List (String × String))
    (g1 g2 : Graph)
    (hrec : ∀ m n, rec_st g1 g2 m n =
      ((rec m n).1, (rec m n).2.1, (rec m n).2.2, g1, g2))
    (e1 : String) :
    ∀ (cands : List String) (m : List (String × String)) (n : Nat),
      EMloop_st rec_st e1 g1 g2 cands m n =
        ((EMloop g1 g2 rec e1 cands m n).1,
         (EMloop g1 g2 rec e1 cands m n).2.1,
         (EMloop g1 g2 rec e1 cands m n).2.2, g1, g2) := by
  intro cands
  induction cands with
  | nil =>
    intro m n
    rfl
  | cons e2 rest ih =>
    intro m n
    simp only [EMloop_st, EMloop, match_e_st]
    split_ifs with h1 h2
    · exact ih m n
    · rw [h2]
      dsimp only
      rw [hrec (m ++ [(e1, e2)]) (n + 1)]
      rcases hr : rec (m ++ [(e1, e2)]) (n + 1) with ⟨b, n2, m2⟩
      cases b
      · dsimp only
        exact ih m n2
      · rfl
    · rw [Bool.eq_false_iff.mpr h2]
      dsimp only
      exact ih m n

theorem ExtendMapping_st_eq (budget : Nat) :
    ∀ (fuel : Nat) (g1 g2 : Graph) (m : List (String × String)) (n : Nat),
      ExtendMapping_st budget fuel g1 g2 m n =
        ((ExtendMapping g1 g2 budget fuel m n).1,
         (ExtendMapping g1 g2 budget fuel m n).2.1,
         (ExtendMapping g1 g2 budget fuel m n).2.2, g1, g2) := by
  intro fuel
  induction fuel with
  | zero =>
    intro g1 g2 m n
    rfl
  | succ fuel ih =>
    intro g1 g2 m n
    simp only [ExtendMapping_st, ExtendMapping]
    split_ifs with h1 h2
    · rfl
    · rfl
    · cases hf : (akeys g1.es).find? (fun k => decide (k ∉ akeys m)) with
      | none => rfl
      | some e1 =>
        exact EMloop_st_eq (ExtendMapping_st budget fuel)
          (ExtendMapping g1 g2 budget fuel) g1 g2
          (fun m' n' => ih g1 g2 m' n') e1 (akeys g2.es) m n

theorem match_g_st_eq (g1 g2 : Graph) :
    match_g_st g1 g2 = (match_g g1 g2, g1, g2) := by
  unfold match_g_st match_g
  split_ifs with h1 h2
  · rfl
  · cases (akeys g1.vs).head? <;> cases (akeys g2.vs).head? <;> rfl
  · rw [ExtendMapping_st_eq]

theorem EMOloop_st_eq
    (rec_st : Graph → Graph → List (String × String) →
      Bool × List (String × String) × Graph × Graph)
    (rec : List (String × String) → Bool × List (String × String))
    (g1 g2 : Graph)
    (hrec : ∀ m, rec_st g1 g2 m = ((rec m).1, (rec m).2, g1, g2))
    (e1 : String) :
    ∀ (cands : List String) (m : List (String × String)),
      EMOloop_st rec_st e1 g1 g2 cands m =
        ((EMOloop g1 g2 rec e1 cands m).1,
         (EMOloop g1 g2 rec e1 cands m).2, g1, g2) := by
  intro cands
  induction cands with
  | nil =>
    intro m
    rfl
  | cons e2 rest ih =>
    intro m
    simp only [EMOloop_st, EMOloop, match_e_st]
    split_ifs with h1 h2
    · exact ih m
    · rw [h2]
      dsimp only
      rw [hrec (m ++ [(e1, e2)])]
      rcases hr : rec (m ++ [(e1, e2)]) with ⟨b, m2⟩
      cases b
      · dsimp only
        exact ih m
      · rfl
    · rw [Bool.eq_false_iff.mpr h2]
      dsimp only
      exact ih m

theorem ExtendMapping_Orig_st_eq :
    ∀ (fuel : Nat) (g1 g2 : Graph) (m : List (String × String)),
      ExtendMapping_Orig_st fuel g1 g2 m =
        ((ExtendMapping_Orig g1 g2 fuel m).1,
         (ExtendMapping_Orig g1 g2 fuel m).2, g1, g2) := by
  intro fuel
  induction fuel with
  | zero =>
    intro g1 g2 m
    rfl
  | succ fuel ih =>
    intro g1 g2 m
    simp only [ExtendMapping_Orig_st, ExtendMapping_Orig]
    split_ifs with h1
    · rfl
    · cases hf : (akeys g1.es).find? (fun k => decide (k ∉ akeys m)) with
      | none => rfl
      | some e1 =>
        exact EMOloop_st_eq (ExtendMapping_Orig_st fuel)
          (ExtendMapping_Orig g1 g2 fuel) g1 g2
          (fun m' => ih g1 g2 m') e1 (akeys g2.es) m

theorem match_g_Orig_st_eq (g1 g2 : Graph) :
    match_g_Orig_st g1 g2 = (match_g_Orig g1 g2, g1, g2) := by
  unfold match_g_Orig_st match_g_Orig
  split_ifs with h1 h2 h3
  · rfl
  · rfl
  · cases (akeys g1.vs).head? <;> cases (akeys g2.vs).head? <;> rfl
  · rw [ExtendMapping_Orig_st_eq]

/-- C10: matching leaves both input graphs entirely unchanged.  In the
state-threaded translations of `match_g`, `ExtendMapping`, `match_g_Orig`
and `ExtendMapping_Orig` — where the graph states flow through every call
and any mutation would surface in the returned states — the returned graph
states always equal the input graphs, and the results agree with the pure
functions. -/
theorem claim_C10 :
    (∀ g1 g2 : Graph, (match_g_st g1 g2).2 = (g1, g2) ∧
      (match_g_st g1 g2).1 = match_g g1 g2) ∧
    (∀ g1 g2 : Graph, (match_g_Orig_st g1 g2).2 = (g1, g2) ∧
      (match_g_Orig_st g1 g2).1 = match_g_Orig g1 g2) ∧
    (∀ (budget fuel : Nat) (g1 g2 : Graph) (m : List (String × String))
      (n : Nat), (ExtendMapping_st budget fuel g1 g2 m n).2.2.2 = (g1, g2)) ∧
    (∀ (fuel : Nat) (g1 g2 : Graph) (m : List (String × String)),
      (ExtendMapping_Orig_st fuel g1 g2 m).2.2 = (g1, g2)) := by
  refine ⟨?_, ?_, ?_, ?_⟩
  · intro g1 g2
    rw [match_g_st_eq]
    exact ⟨rfl, rfl⟩
  · intro g1 g2
    rw [match_g_Orig_st_eq]
    exact ⟨rfl, rfl⟩
  · intro budget fuel g1 g2 m n
    rw [ExtendMapping_st_eq]
  · intro fuel g1 g2 m
    rw [ExtendMapping_Orig_st_eq]

/-! ### Claim C1: compression — dictionary lemmas -/

theorem alookup_nil {α : Type} (k : String) : alookup ([] : List (String × α)) k = none := rfl

theorem alookup_cons {α : Type} (p : String × α) (t : List (String × α))
    (k : String) :
    alookup (p :: t) k = if p.1 = k then some p.2 else alookup t k := by
  by_cases h : p.1 = k
  · simp [alookup, List.find?, h]
  · have hd : (decide (p.1 = k)) = false := by simp [h]
    simp [alookup, List.find?, hd, h]

theorem alookup_append {α : Type} :
    ∀ (l1 l2 : List (String × α)) (k : String),
      alookup (l1 ++ l2) k =
        match alookup l1 k with
        | some v => some v
        | none => alookup l2 k := by
  intro l1
  induction l1 with
  | nil =>
    intro l2 k
    rfl
  | cons p t ih =>
    intro l2 k
    rw [List.cons_append, alookup_cons, alookup_cons]
    by_cases h : p.1 = k
    · rw [if_pos h, if_pos h]
    · rw [if_neg h, if_neg h, ih]

theorem alookup_dupd {α : Type} :
    ∀ (l : List (String × α)) (k : String) (f : α → α) (k' : String),
      alookup (dupd l k f) k' =
        if k' = k then (alookup l k').map f else alookup l k' := by
  intro l
  induction l with
  | nil =>
    intro k f k'
    simp [dupd, alookup_nil]
  | cons p t ih =>
    intro k f k'
    simp only [dupd, List.map_cons]
    by_cases hp : p.1 = k
    · rw [if_pos hp]
      rw [show ((p.1, f p.2) :: t.map (fun q => if q.1 = k then (q.1, f q.2) else q)) =
        (p.1, f p.2) :: dupd t k f from rfl]
      rw [alookup_cons, alookup_cons, ih]
      by_cases hp' : p.1 = k'
      · rw [if_pos hp', if_pos hp', if_pos (hp' ▸ hp ▸ rfl : k' = k)]
        rfl
      · rw [if_neg hp', if_neg hp']
    · rw [if_neg hp]
      rw [show ((p :: t.map (fun q => if q.1 = k then (q.1, f q.2) else q))) =
        p :: dupd t k f from rfl]
      rw [alookup_cons, alookup_cons, ih]
      by_cases hp' : p.1 = k'
      · have hkk : ¬ k' = k := by
          intro hc
          exact hp (by rw [hp', hc])
        rw [if_pos hp', if_pos hp', if_neg hkk]
      · rw [if_neg hp', if_neg hp']

theorem alookup_ddel {α : Type} :
    ∀ (l : List (String × α)) (k k' : String),
      alookup (ddel l k) k' = if k' = k then none else alookup l k' := by
  intro l
  induction l with
  | nil =>
    intro k k'
    by_cases h : k' = k <;> simp [ddel, alookup_nil, h]
  | cons p t ih =>
    intro k k'
    simp only [ddel, List.filter_cons]
    by_cases hp : p.1 = k
    · rw [if_neg (show ¬((decide (p.1 ≠ k)) = true) from by simp [hp])]
      rw [show (List.filter (fun q => decide (q.1 ≠ k)) t) = ddel t k from rfl, ih]
      by_cases h : k' = k
      · rw [if_pos h, if_pos h]
      · rw [if_neg h, if_neg h, alookup_cons,
          if_neg (by rw [hp]; exact fun hc => h hc.symm)]
    · rw [if_pos (show (decide (p.1 ≠ k)) = true from by simp [hp])]
      rw [show (p :: List.filter (fun q => decide (q.1 ≠ k)) t) =
        p :: ddel t k from rfl, alookup_cons, ih, alookup_cons]
      by_cases h : k' = k
      · rw [if_pos h, if_pos h, if_neg (by rw [h]; exact hp)]
      · rw [if_neg h, if_neg h]

theorem akeys_dupd {α : Type} (l : List (String × α)) (k : String)
    (f : α → α) : akeys (dupd l k f) = akeys l := by
  unfold akeys dupd
  rw [List.map_map]
  apply List.map_congr_left
  intro p _
  by_cases h : p.1 = k
  · simp [h]
  · simp [h]

theorem mem_akeys_iff_isSome {α : Type} :
    ∀ (l : List (String × α)) (k : String),
      k ∈ akeys l ↔ (alookup l k).isSome := by
  intro l
  induction l with
  | nil =>
    intro k
    simp [akeys, alookup_nil]
  | cons p t ih =>
    intro k
    rw [alookup_cons]
    by_cases h : p.1 = k
    · simp [akeys, h]
    · simp only [akeys, List.map_cons, List.mem_cons, if_neg h]
      rw [show (List.map Prod.fst t) = akeys t from rfl, ih]
      constructor
      · rintro (rfl | hm)
        · exact absurd rfl h
        · exact hm
      · intro hm
        exact Or.inr hm

theorem alookup_mem {α : Type} :
    ∀ (l : List (String × α)) (k : String) (v : α),
      alookup l k = some v → (k, v) ∈ l := by
  intro l
  induction l with
  | nil =>
    intro k v h
    simp [alookup_nil] at h
  | cons p t ih =>
    intro k v h
    rw [alookup_cons] at h
    by_cases hp : p.1 = k
    · rw [if_pos hp] at h
      obtain rfl : p.2 = v := by simpa using h
      rw [← hp]
      exact List.mem_cons_self p t
    · rw [if_neg hp] at h
      exact List.mem_cons_of_mem _ (ih k v h)

theorem ddel_length {α : Type} :
    ∀ (l : List (String × α)), (akeys l).Nodup → ∀ (k : String),
      k ∈ akeys l → (ddel l k).length + 1 = l.length := by
  intro l
  induction l with
  | nil =>
    intro _ k h
    simp [akeys] at h
  | cons p t ih =>
    intro hN k h
    simp only [ddel, List.filter_cons]
    by_cases hp : p.1 = k
    · rw [if_neg (show ¬((decide (p.1 ≠ k)) = true) from by simp [hp])]
      have hkt : k ∉ akeys t := by
        rw [← hp]
        exact (List.nodup_cons.mp hN).1
      have hself : ddel t k = t := by
        apply List.filter_eq_self.mpr
        intro q hq
        simp only [decide_eq_true_eq]
        intro hc
        exact hkt (hc ▸ List.mem_map.mpr ⟨q, hq, rfl⟩)
      rw [show (List.filter (fun q => decide (q.1 ≠ k)) t) = ddel t k from rfl,
        hself]
      simp
    · rw [if_pos (show (decide (p.1 ≠ k)) = true from by simp [hp])]
      have hkt : k ∈ akeys t := by
        rcases List.mem_cons.mp h with h' | h'
        · exact absurd h'.symm hp
        · exact h'
      have := ih (List.nodup_cons.mp hN).2 k hkt
      simp only [List.length_cons]
      rw [show (List.filter (fun q => decide (q.1 ≠ k)) t) = ddel t k from rfl]
      omega

theorem akeys_ddel_nodup {α : Type} (l : List (String × α)) (k : String)
    (hN : (akeys l).Nodup) : (akeys (ddel l k)).Nodup := by
  have hsub : (ddel l k).Sublist l := List.filter_sublist l
  exact hN.sublist (hsub.map Prod.fst)

/-! ### Claim C1: compression — the edge-removal phase -/

theorem removeInstEdge_vs_keys (g : Graph) (e : String) :
    akeys (removeInstEdge g e).vs = akeys g.vs := by
  cases hE : alookup g.es e with
  | none => simp [removeInstEdge, hE]
  | some E => simp [removeInstEdge, hE, akeys_dupd]

theorem removeInstEdge_es_lookup (g : Graph) (e eid : String) :
    alookup (removeInstEdge g e).es eid =
      if eid = e then none else alookup g.es eid := by
  cases hE : alookup g.es e with
  | none =>
    simp only [removeInstEdge, hE]
    by_cases h : eid = e
    · rw [if_pos h, h, hE]
    · rw [if_neg h]
  | some E =>
    simp only [removeInstEdge, hE]
    exact alookup_ddel g.es e eid

theorem removeInstEdge_es_nodup (g : Graph) (e : String)
    (hN : (akeys g.es).Nodup) : (akeys (removeInstEdge g e).es).Nodup := by
  cases hE : alookup g.es e with
  | none => simpa [removeInstEdge, hE] using hN
  | some E =>
    simp only [removeInstEdge, hE]
    exact akeys_ddel_nodup g.es e hN

theorem removeInstEdge_es_length (g : Graph) (e : String)
    (hN : (akeys g.es).Nodup) (he : e ∈ akeys g.es) :
    (removeInstEdge g e).es.length + 1 = g.es.length := by
  cases hE : alookup g.es e with
  | none =>
    have := (mem_akeys_iff_isSome g.es e).mp he
    rw [hE] at this
    simp at this
  | some E =>
    simp only [removeInstEdge, hE]
    exact ddel_length g.es hN e he

theorem removeInstEdge_count (g : Graph) (e eid0 : String) (hne : eid0 ≠ e)
    (k : String) :
    (alookup (removeInstEdge g e).vs k).map (fun v => v.es.count eid0) =
      (alookup g.vs k).map (fun v => v.es.count eid0) := by
  cases hE : alookup g.es e with
  | none => simp [removeInstEdge, hE]
  | some E =>
    simp only [removeInstEdge, hE]
    rw [alookup_dupd, alookup_dupd]
    by_cases h1 : k = E.tgt
    · rw [if_pos h1]
      by_cases h2 : k = E.src
      · rw [if_pos h2]
        cases hv : alookup g.vs k <;>
          simp [List.count_erase_of_ne hne]
      · rw [if_neg h2]
        cases hv : alookup g.vs k <;>
          simp [List.count_erase_of_ne hne]
    · rw [if_neg h1]
      by_cases h2 : k = E.src
      · rw [if_pos h2]
        cases hv : alookup g.vs k <;>
          simp [List.count_erase_of_ne hne]
      · rw [if_neg h2]

theorem foldRIE_vs_keys :
    ∀ (L : List String) (g : Graph),
      akeys (L.foldl removeInstEdge g).vs = akeys g.vs := by
  intro L
  induction L with
  | nil =>
    intro g
    rfl
  | cons e rest ih =>
    intro g
    rw [List.foldl_cons, ih, removeInstEdge_vs_keys]

theorem foldRIE_es_lookup :
    ∀ (L : List String) (g : Graph) (eid : String),
      alookup (L.foldl removeInstEdge g).es eid =
        if eid ∈ L then none else alookup g.es eid := by
  intro L
  induction L with
  | nil =>
    intro g eid
    simp
  | cons e rest ih =>
    intro g eid
    rw [List.foldl_cons, ih, removeInstEdge_es_lookup]
    by_cases h1 : eid ∈ rest
    · rw [if_pos h1, if_pos (List.mem_cons_of_mem _ h1)]
    · rw [if_neg h1]
      by_cases h2 : eid = e
      · rw [if_pos h2, if_pos (by rw [h2]; exact List.mem_cons_self _ _)]
      · rw [if_neg h2, if_neg (by
          intro hc
          rcases List.mem_cons.mp hc with hc | hc
          · exact h2 hc
          · exact h1 hc)]

theorem foldRIE_es_nodup :
    ∀ (L : List String) (g : Graph), (akeys g.es).Nodup →
      (akeys (L.foldl removeInstEdge g).es).Nodup := by
  intro L
  induction L with
  | nil =>
    intro g h
    exact h
  | cons e rest ih =>
    intro g h
    rw [List.foldl_cons]
    exact ih _ (removeInstEdge_es_nodup g e h)

theorem foldRIE_es_length :
    ∀ (L : List String) (g : Graph), (akeys g.es).Nodup → L.Nodup →
      (∀ e ∈ L, e ∈ akeys g.es) →
      (L.foldl removeInstEdge g).es.length + L.length = g.es.length := by
  intro L
  induction L with
  | nil =>
    intro g _ _ _
    simp
  | cons e rest ih =>
    intro g hN hLN hsub
    rw [List.foldl_cons]
    have he : e ∈ akeys g.es := hsub e (List.mem_cons_self _ _)
    have hstep := removeInstEdge_es_length g e hN he
    have hrest := ih (removeInstEdge g e) (removeInstEdge_es_nodup g e hN)
      (List.nodup_cons.mp hLN).2
      (by
        intro e' he'
        rw [mem_akeys_iff_isSome, removeInstEdge_es_lookup,
          if_neg (by
            intro hc
            exact (List.nodup_cons.mp hLN).1 (hc ▸ he'))]
        exact (mem_akeys_iff_isSome g.es e').mp (hsub e' (List.mem_cons_of_mem _ he')))
    simp only [List.length_cons]
    omega

theorem foldRIE_count :
    ∀ (L : List String) (g : Graph) (eid0 : String), eid0 ∉ L →
      ∀ k, (alookup (L.foldl removeInstEdge g).vs k).map
          (fun v => v.es.count eid0) =
        (alookup g.vs k).map (fun v => v.es.count eid0) := by
  intro L
  induction L with
  | nil =>
    intro g eid0 _ k
    rfl
  | cons e rest ih =>
    intro g eid0 hni k
    rw [List.foldl_cons,
      ih (removeInstEdge g e) eid0 (fun hc => hni (List.mem_cons_of_mem _ hc)) k,
      removeInstEdge_count g e eid0 (fun hc => hni (hc ▸ List.mem_cons_self _ _)) k]

/-! ### Claim C1: compression — the vertex-folding phase -/

theorem repointEdge_vs_other (nvid vid : String) (g : Graph) (e : String)
    (k : String) (hk : k ≠ nvid) :
    alookup (repointEdge nvid vid g e).vs k = alookup g.vs k := by
  cases hE : alookup g.es e with
  | none => simp [repointEdge, hE]
  | some E =>
    simp only [repointEdge, hE]
    split_ifs <;> dsimp only <;> first
      | rfl
      | rw [alookup_dupd, if_neg hk]

theorem repointEdge_vs_keys (nvid vid : String) (g : Graph) (e : String) :
    akeys (repointEdge nvid vid g e).vs = akeys g.vs := by
  cases hE : alookup g.es e with
  | none => simp [repointEdge, hE]
  | some E =>
    simp only [repointEdge, hE]
    split_ifs <;> dsimp only <;> first
      | rfl
      | exact akeys_dupd _ _ _

theorem repointEdge_es_keys (nvid vid : String) (g : Graph) (e : String) :
    akeys (repointEdge nvid vid g e).es = akeys g.es := by
  cases hE : alookup g.es e with
  | none => simp [repointEdge, hE]
  | some E =>
    simp only [repointEdge, hE]
    split_ifs <;> dsimp only <;> exact akeys_dupd _ _ _

theorem repointEdge_es_other (nvid vid : String) (g : Graph) (e eid0 : String)
    (hne : eid0 ≠ e) :
    alookup (repointEdge nvid vid g e).es eid0 = alookup g.es eid0 := by
  cases hE : alookup g.es e with
  | none => simp [repointEdge, hE]
  | some E =>
    simp only [repointEdge, hE]
    split_ifs <;> dsimp only <;> rw [alookup_dupd, if_neg hne]

theorem repointEdge_nv_count_other (nvid vid : String) (g : Graph)
    (e eid0 : String) (hne : eid0 ≠ e) :
    (alookup (repointEdge nvid vid g e).vs nvid).map
        (fun v => v.es.count eid0) =
      (alookup g.vs nvid).map (fun v => v.es.count eid0) := by
  cases hE : alookup g.es e with
  | none => simp [repointEdge, hE]
  | some E =>
    simp only [repointEdge, hE]
    split_ifs <;> dsimp only <;> first
      | rfl
      | (rw [alookup_dupd, if_pos rfl]
         cases hv : alookup g.vs nvid with
         | none => rfl
         | some NV =>
           simp only [Option.map_some']
           congr 1
           rw [List.count_append]
           have h0 : List.count eid0 [e] = 0 := by
             simp [hne]
           omega)

theorem foldRPE_vs_other (nvid vid : String) :
    ∀ (L : List String) (g : Graph) (k : String), k ≠ nvid →
      alookup (List.foldl (repointEdge nvid vid) g L).vs k =
        alookup g.vs k := by
  intro L
  induction L with
  | nil =>
    intro g k _
    rfl
  | cons e rest ih =>
    intro g k hk
    rw [List.foldl_cons, ih _ k hk, repointEdge_vs_other _ _ _ _ k hk]

theorem foldRPE_keys (nvid vid : String) :
    ∀ (L : List String) (g : Graph),
      akeys (List.foldl (repointEdge nvid vid) g L).vs = akeys g.vs ∧
      akeys (List.foldl (repointEdge nvid vid) g L).es = akeys g.es := by
  intro L
  induction L with
  | nil =>
    intro g
    exact ⟨rfl, rfl⟩
  | cons e rest ih =>
    intro g
    rw [List.foldl_cons]
    obtain ⟨h1, h2⟩ := ih (repointEdge nvid vid g e)
    rw [h1, h2, repointEdge_vs_keys, repointEdge_es_keys]
    exact ⟨rfl, rfl⟩

theorem foldRPE_untouched (nvid vid : String) (eid0 : String) :
    ∀ (L : List String) (g : Graph), eid0 ∉ L →
      alookup (List.foldl (repointEdge nvid vid) g L).es eid0 =
          alookup g.es eid0 ∧
      (alookup (List.foldl (repointEdge nvid vid) g L).vs nvid).map
          (fun v => v.es.count eid0) =
        (alookup g.vs nvid).map (fun v => v.es.count eid0) := by
  intro L
  induction L with
  | nil =>
    intro g _
    exact ⟨rfl, rfl⟩
  | cons e rest ih =>
    intro g hni
    rw [List.foldl_cons]
    obtain ⟨h1, h2⟩ := ih (repointEdge nvid vid g e)
      (fun hc => hni (List.mem_cons_of_mem _ hc))
    have hne : eid0 ≠ e := fun hc => hni (hc ▸ List.mem_cons_self _ _)
    rw [h1, h2, repointEdge_es_other _ _ _ _ _ hne,
      repointEdge_nv_count_other _ _ _ _ _ hne]
    exact ⟨rfl, rfl⟩

theorem count_one_split {a : String} :
    ∀ (l : List String), l.count a = 1 →
      ∃ s t, l = s ++ a :: t ∧ a ∉ s ∧ a ∉ t := by
  intro l
  induction l with
  | nil =>
    intro h
    simp [List.count_nil] at h
  | cons b rest ih =>
    intro h
    by_cases hab : a = b
    · rw [← hab] at h ⊢
      rw [List.count_cons_self] at h
      have hcz : rest.count a = 0 := by omega
      exact ⟨[], rest, rfl, List.not_mem_nil a, List.count_eq_zero.mp hcz⟩
    · rw [List.count_cons_of_ne hab] at h
      obtain ⟨s, t, rfl, hs, ht⟩ := ih h
      exact ⟨b :: s, t, rfl, by
        intro hc
        rcases List.mem_cons.mp hc with hc | hc
        · exact hab hc
        · exact hs hc, ht⟩

/-- Processing the unique occurrence of a boundary edge: its graph-side entry
is re-pointed and it is appended once to the synthetic vertex's list. -/
theorem repointEdge_hit (nvid vid : String) (g : Graph) (eid0 : String)
    (E0 : Edge) (hE : alookup g.es eid0 = some E0) (NV : Vertex)
    (hNV : alookup g.vs nvid = some NV) (hcnt : NV.es.count eid0 = 0) :
    alookup (repointEdge nvid vid g eid0).es eid0 =
      some { E0 with src := if E0.src = vid then nvid else E0.src,
                     tgt := if E0.tgt = vid then nvid else E0.tgt } ∧
    (alookup (repointEdge nvid vid g eid0).vs nvid).map
        (fun v => v.es.count eid0) = some 1 := by
  have hmem : eid0 ∉ ((alookup g.vs nvid).getD default).es := by
    rw [hNV]
    exact List.count_eq_zero.mp hcnt
  simp only [repointEdge, hE, if_neg hmem]
  constructor
  · rw [alookup_dupd, if_pos rfl, hE]
    rfl
  · rw [alookup_dupd, if_pos rfl, hNV]
    simp only [Option.map_some']
    congr 1
    rw [List.count_append, hcnt]
    simp

theorem repointFold_hit (nvid vid : String) (eid0 : String) (E0 : Edge) :
    ∀ (L : List String) (g : Graph), L.count eid0 = 1 →
      alookup g.es eid0 = some E0 →
      (alookup g.vs nvid).map (fun v => v.es.count eid0) = some 0 →
      alookup (List.foldl (repointEdge nvid vid) g L).es eid0 =
        some { E0 with src := if E0.src = vid then nvid else E0.src,
                       tgt := if E0.tgt = vid then nvid else E0.tgt } ∧
      (alookup (List.foldl (repointEdge nvid vid) g L).vs nvid).map
          (fun v => v.es.count eid0) = some 1 := by
  intro L g hcount hE hNV
  obtain ⟨s, t, rfl, hs, ht⟩ := count_one_split L hcount
  rw [List.foldl_append, List.foldl_cons]
  obtain ⟨hes1, hnv1⟩ := foldRPE_untouched nvid vid eid0 s g hs
  obtain ⟨NV1, hNV1, hcnt1⟩ : ∃ NV1,
      alookup (List.foldl (repointEdge nvid vid) g s).vs nvid = some NV1 ∧
        NV1.es.count eid0 = 0 := by
    rw [hNV] at hnv1
    cases hv1 : alookup (List.foldl (repointEdge nvid vid) g s).vs nvid with
    | none =>
      rw [hv1] at hnv1
      simp at hnv1
    | some NV1 =>
      rw [hv1] at hnv1
      simp only [Option.map_some', Option.some.injEq] at hnv1
      exact ⟨NV1, rfl, hnv1⟩
  have hE1 : alookup (List.foldl (repointEdge nvid vid) g s).es eid0 =
      some E0 := by
    rw [hes1, hE]
  obtain ⟨hhit1, hhit2⟩ := repointEdge_hit nvid vid _ eid0 E0 hE1 NV1 hNV1 hcnt1
  obtain ⟨hes2, hnv2⟩ := foldRPE_untouched nvid vid eid0 t _ ht
  rw [hes2, hnv2]
  exact ⟨hhit1, hhit2⟩

theorem compressVertex_vs_mem (nvid : String) (h : Graph) (v : String)
    (k : String) :
    k ∈ akeys (compressVertex nvid h v).vs ↔ k ∈ akeys h.vs ∧ k ≠ v := by
  cases hv : alookup h.vs v with
  | none =>
    simp only [compressVertex, hv]
    constructor
    · intro hk
      refine ⟨hk, ?_⟩
      intro hc
      have := (mem_akeys_iff_isSome h.vs v).mp (hc ▸ hk)
      rw [hv] at this
      simp at this
    · intro hk
      exact hk.1
  | some vObj =>
    simp only [compressVertex, hv]
    rw [mem_akeys_iff_isSome, alookup_ddel]
    by_cases hkv : k = v
    · rw [if_pos hkv]
      simp [hkv]
    · rw [if_neg hkv]
      rw [← mem_akeys_iff_isSome, (foldRPE_keys nvid v vObj.es h).1]
      exact ⟨fun hk => ⟨hk, hkv⟩, fun hk => hk.1⟩

theorem compressVertex_vs_nodup (nvid : String) (h : Graph) (v : String)
    (hN : (akeys h.vs).Nodup) :
    (akeys (compressVertex nvid h v).vs).Nodup := by
  cases hv : alookup h.vs v with
  | none => simpa [compressVertex, hv] using hN
  | some vObj =>
    simp only [compressVertex, hv]
    apply akeys_ddel_nodup
    rw [(foldRPE_keys nvid v vObj.es h).1]
    exact hN

theorem compressVertex_vs_length (nvid : String) (h : Graph) (v : String)
    (hN : (akeys h.vs).Nodup) (hv : v ∈ akeys h.vs) :
    (compressVertex nvid h v).vs.length + 1 = h.vs.length := by
  cases hlv : alookup h.vs v with
  | none =>
    have := (mem_akeys_iff_isSome h.vs v).mp hv
    rw [hlv] at this
    simp at this
  | some vObj =>
    simp only [compressVertex, hlv]
    have hkeys := (foldRPE_keys nvid v vObj.es h).1
    have hNf : (akeys (List.foldl (repointEdge nvid v) h vObj.es).vs).Nodup := by
      rw [hkeys]
      exact hN
    have hvf : v ∈ akeys (List.foldl (repointEdge nvid v) h vObj.es).vs := by
      rw [hkeys]
      exact hv
    have hdd := ddel_length _ hNf v hvf
    have hlen1 : (List.foldl (repointEdge nvid v) h vObj.es).vs.length =
        h.vs.length := by
      have := congrArg List.length hkeys
      simpa [akeys] using this
    omega

theorem compressVertex_es_keys (nvid : String) (h : Graph) (v : String) :
    akeys (compressVertex nvid h v).es = akeys h.es := by
  cases hv : alookup h.vs v with
  | none => simp [compressVertex, hv]
  | some vObj =>
    simp only [compressVertex, hv]
    exact (foldRPE_keys nvid v vObj.es h).2

theorem compressVertex_vs_other (nvid : String) (h : Graph) (v : String)
    (k : String) (hk1 : k ≠ nvid) (hk2 : k ≠ v) :
    alookup (compressVertex nvid h v).vs k = alookup h.vs k := by
  cases hv : alookup h.vs v with
  | none => simp [compressVertex, hv]
  | some vObj =>
    simp only [compressVertex, hv]
    rw [alookup_ddel, if_neg hk2]
    exact foldRPE_vs_other nvid v vObj.es h k hk1

theorem compressVertex_skip (nvid : String) (h : Graph) (v eid0 : String)
    (hnvid : nvid ≠ v)
    (hskip : ∀ vObj, alookup h.vs v = some vObj → vObj.es.count eid0 = 0) :
    alookup (compressVertex nvid h v).es eid0 = alookup h.es eid0 ∧
    (alookup (compressVertex nvid h v).vs nvid).map
        (fun x => x.es.count eid0) =
      (alookup h.vs nvid).map (fun x => x.es.count eid0) := by
  cases hv : alookup h.vs v with
  | none => simp [compressVertex, hv]
  | some vObj =>
    simp only [compressVertex, hv]
    have hni : eid0 ∉ vObj.es := List.count_eq_zero.mp (hskip vObj hv)
    obtain ⟨h1, h2⟩ := foldRPE_untouched nvid v eid0 vObj.es h hni
    refine ⟨h1, ?_⟩
    rw [alookup_ddel, if_neg hnvid]
    exact h2

theorem compressVertex_hit (nvid : String) (h : Graph) (v eid0 : String)
    (E0 : Edge) (vObj : Vertex) (hnvid : nvid ≠ v)
    (hv : alookup h.vs v = some vObj) (hcnt : vObj.es.count eid0 = 1)
    (hE : alookup h.es eid0 = some E0)
    (hNV : (alookup h.vs nvid).map (fun x => x.es.count eid0) = some 0) :
    alookup (compressVertex nvid h v).es eid0 =
      some { E0 with src := if E0.src = v then nvid else E0.src,
                     tgt := if E0.tgt = v then nvid else E0.tgt } ∧
    (alookup (compressVertex nvid h v).vs nvid).map
        (fun x => x.es.count eid0) = some 1 := by
  simp only [compressVertex, hv]
  obtain ⟨h1, h2⟩ := repointFold_hit nvid v eid0 E0 vObj.es h hcnt hE hNV
  refine ⟨h1, ?_⟩
  rw [alookup_ddel, if_neg hnvid]
  exact h2

theorem compressFold_vs_length (nvid : String) :
    ∀ (todo : List String) (h : Graph), todo.Nodup →
      (∀ v ∈ todo, v ∈ akeys h.vs) → (akeys h.vs).Nodup →
      (List.foldl (compressVertex nvid) h todo).vs.length + todo.length =
        h.vs.length := by
  intro todo
  induction todo with
  | nil =>
    intro h _ _ _
    simp
  | cons v rest ih =>
    intro h hND hsub hN
    rw [List.foldl_cons]
    have hv : v ∈ akeys h.vs := hsub v (List.mem_cons_self _ _)
    have hstep := compressVertex_vs_length nvid h v hN hv
    have hrest := ih (compressVertex nvid h v) (List.nodup_cons.mp hND).2
      (by
        intro v' hv'
        rw [compressVertex_vs_mem]
        exact ⟨hsub v' (List.mem_cons_of_mem _ hv'), by
          intro hc
          exact (List.nodup_cons.mp hND).1 (hc ▸ hv')⟩)
      (compressVertex_vs_nodup nvid h v hN)
    simp only [List.length_cons]
    omega

theorem compressFold_es_keys (nvid : String) :
    ∀ (todo : List String) (h : Graph),
      akeys (List.foldl (compressVertex nvid) h todo).es = akeys h.es := by
  intro todo
  induction todo with
  | nil =>
    intro h
    rfl
  | cons v rest ih =>
    intro h
    rw [List.foldl_cons, ih, compressVertex_es_keys]

theorem compressFold_J (nvid v0 eid0 : String) (E0 E0' : Edge) (g2 : Graph)
    (VS : List String) (hnvid : nvid ∉ VS)
    (hE0' : E0' = { E0 with src := if E0.src = v0 then nvid else E0.src,
                            tgt := if E0.tgt = v0 then nvid else E0.tgt })
    (hcnt : ∀ v ∈ VS, (alookup g2.vs v).map (fun x => x.es.count eid0) =
      some (if v = v0 then 1 else 0)) :
    ∀ (todo : List String) (h : Graph),
      (∀ v ∈ todo, v ∈ VS) → todo.Nodup →
      alookup h.es eid0 = some (if v0 ∈ todo then E0 else E0') →
      (alookup h.vs nvid).map (fun x => x.es.count eid0) =
        some (if v0 ∈ todo then 0 else 1) →
      (∀ k ∈ VS, k ∈ todo → alookup h.vs k = alookup g2.vs k) →
      alookup (List.foldl (compressVertex nvid) h todo).es eid0 = some E0' ∧
      (alookup (List.foldl (compressVertex nvid) h todo).vs nvid).map
          (fun x => x.es.count eid0) = some 1 := by
  intro todo
  induction todo with
  | nil =>
    intro h _ _ hes hnv _
    simp only [List.not_mem_nil, if_false] at hes hnv
    exact ⟨hes, hnv⟩
  | cons v rest ih =>
    intro h hsub hND hes hnv hJvs
    rw [List.foldl_cons]
    have hvVS : v ∈ VS := hsub v (List.mem_cons_self _ _)
    have hnvv : nvid ≠ v := by
      intro hc
      exact hnvid (hc ▸ hvVS)
    have hlook : alookup h.vs v = alookup g2.vs v :=
      hJvs v hvVS (List.mem_cons_self _ _)
    have hcv := hcnt v hvVS
    obtain ⟨vObj, hvObj, hvcnt⟩ : ∃ vObj, alookup h.vs v = some vObj ∧
        vObj.es.count eid0 = (if v = v0 then 1 else 0) := by
      rw [hlook]
      cases hg2 : alookup g2.vs v with
      | none =>
        rw [hg2] at hcv
        simp at hcv
      | some vObj =>
        rw [hg2] at hcv
        simp only [Option.map_some', Option.some.injEq] at hcv
        exact ⟨vObj, rfl, hcv⟩
    by_cases hv0 : v = v0
    · have hmem : v0 ∈ v :: rest := by
        rw [← hv0]
        exact List.mem_cons_self _ _
      rw [if_pos hmem] at hes hnv
      have hv0rest : v0 ∉ rest := by
        intro hc
        exact (List.nodup_cons.mp hND).1 (hv0 ▸ hc)
      obtain ⟨hes', hnv'⟩ := compressVertex_hit nvid h v eid0 E0 vObj hnvv
        hvObj (by rw [hvcnt, if_pos hv0]) hes hnv
      have hE0'v : E0' = { E0 with
          src := (if E0.src = v then nvid else E0.src),
          tgt := (if E0.tgt = v then nvid else E0.tgt) } := by
        rw [hE0', hv0]
      rw [← hE0'v] at hes'
      exact ih (compressVertex nvid h v) (fun v' hv' => hsub v' (List.mem_cons_of_mem _ hv'))
        (List.nodup_cons.mp hND).2
        (by rw [if_neg hv0rest]; exact hes')
        (by rw [if_neg hv0rest]; exact hnv')
        (by
          intro k hkVS hkrest
          rw [compressVertex_vs_other nvid h v k
            (fun hc => hnvid (hc ▸ hkVS))
            (fun hc => (List.nodup_cons.mp hND).1 (hc ▸ hkrest))]
          exact hJvs k hkVS (List.mem_cons_of_mem _ hkrest))
    · have hmem : (v0 ∈ v :: rest) ↔ (v0 ∈ rest) := by
        constructor
        · intro hc
          rcases List.mem_cons.mp hc with hc | hc
          · exact absurd hc.symm hv0
          · exact hc
        · exact fun hc => List.mem_cons_of_mem _ hc
      obtain ⟨hes', hnv'⟩ := compressVertex_skip nvid h v eid0 hnvv
        (by
          intro vObj' hvObj'
          rw [hvObj'] at hvObj
          obtain rfl : vObj' = vObj := by simpa using hvObj
          rw [hvcnt, if_neg hv0])
      exact ih (compressVertex nvid h v)
        (fun v' hv' => hsub v' (List.mem_cons_of_mem _ hv'))
        (List.nodup_cons.mp hND).2
        (by rw [hes', hes, if_congr hmem rfl rfl])
        (by rw [hnv', hnv, if_congr hmem rfl rfl])
        (by
          intro k hkVS hkrest
          rw [compressVertex_vs_other nvid h v k
            (fun hc => hnvid (hc ▸ hkVS))
            (fun hc => (List.nodup_cons.mp hND).1 (hc ▸ hkrest))]
          exact hJvs k hkVS (List.mem_cons_of_mem _ hkrest))

/-- Number of references an edge entry makes to a vertex id (0, 1, or 2). -/
def incCount (es : List (String × Edge)) (eid vid : String) : Nat :=
  match alookup es eid with
  | none => 0
  | some e => (if e.src = vid then 1 else 0) + (if e.tgt = vid then 1 else 0)

/-- The dual-mapping invariant of a graph: unique vertex and edge ids, every
edge's endpoints present in the vertex map, and every vertex's incident-edge
list holding each edge id exactly as often as that edge references the
vertex. -/
def WF (g : Graph) : Prop :=
  (akeys g.vs).Nodup ∧ (akeys g.es).Nodup ∧
    (∀ p ∈ g.es, p.2.src ∈ akeys g.vs ∧ p.2.tgt ∈ akeys g.vs) ∧
    ∀ p ∈ g.vs, ∀ eid : String, p.2.es.count eid = incCount g.es eid p.1

theorem dinsert_fresh {α : Type} (l : List (String × α)) (k : String) (v : α)
    (h : k ∉ akeys l) : dinsert l k v = l ++ [(k, v)] := by
  simp [dinsert, h]

/-- `Compress` on a single-instance pattern, unfolded into its three phases
with the generated synthetic id written out (valid when that id is fresh, so
that the dict assignment appends). -/
theorem Compress_single (g : Graph) (inst : PInstance) (it : Nat)
    (hfresh : ("PATTERN-" ++ toString it ++ "-" ++ toString (0 : Nat)) ∉
      akeys g.vs) :
    Compress g it { insts := [inst] } =
      List.foldl
        (compressVertex ("PATTERN-" ++ toString it ++ "-" ++ toString (0 : Nat)))
        (List.foldl removeInstEdge
          { vs := g.vs ++
              [("PATTERN-" ++ toString it ++ "-" ++ toString (0 : Nat),
                ⟨"PATTERN-" ++ toString it ++ "-" ++ toString (0 : Nat),
                 inst.max_timestamp, 0,
                 [("label", "PATTERN-" ++ toString it)], []⟩)],
            es := g.es }
          inst.es) inst.vs := by
  show CompressInst it 0 g inst = _
  unfold CompressInst
  dsimp only
  rw [dinsert_fresh g.vs _ _ hfresh]

/-- C1 amended: on a graph satisfying the dual-mapping invariant, for a
single non-overlapping instance drawn from the graph whose generated
synthetic id `PATTERN-it-0` does not collide with an existing vertex id,
`Compress` removes the instance's `k` vertices and adds one synthetic vertex
(net decrease `k - 1`), removes exactly the instance's `m` edges, and every
edge with exactly one endpoint inside the instance survives with that
endpoint replaced by the synthetic id and occurs exactly once in the
synthetic vertex's incident list. -/
theorem claim_C1 (g : Graph) (inst : PInstance) (it : Nat) (hWF : WF g)
    (hvsub : ∀ v ∈ inst.vs, v ∈ akeys g.vs) (hvnd : inst.vs.Nodup)
    (hesub : ∀ e ∈ inst.es, e ∈ akeys g.es) (hend : inst.es.Nodup)
    (hfresh : ("PATTERN-" ++ toString it ++ "-" ++ toString (0 : Nat)) ∉
      akeys g.vs) :
    (Compress g it { insts := [inst] }).vs.length + inst.vs.length =
        g.vs.length + 1 ∧
    (Compress g it { insts := [inst] }).es.length + inst.es.length =
        g.es.length ∧
    (∀ (eid : String) (E : Edge), alookup g.es eid = some E →
      eid ∉ inst.es →
      ((E.src ∈ inst.vs ∧ E.tgt ∉ inst.vs) ∨
        (E.src ∉ inst.vs ∧ E.tgt ∈ inst.vs)) →
      alookup (Compress g it { insts := [inst] }).es eid =
        some { E with
          src := (if E.src ∈ inst.vs then
            "PATTERN-" ++ toString it ++ "-" ++ toString (0 : Nat) else E.src),
          tgt := (if E.tgt ∈ inst.vs then
            "PATTERN-" ++ toString it ++ "-" ++ toString (0 : Nat) else E.tgt) } ∧
      ∃ NV, alookup (Compress g it { insts := [inst] }).vs
          ("PATTERN-" ++ toString it ++ "-" ++ toString (0 : Nat)) = some NV ∧
        NV.es.count eid = 1) := by
  rw [Compress_single g inst it hfresh]
  set NVID : String := "PATTERN-" ++ toString it ++ "-" ++ toString (0 : Nat)
    with hNVID
  set NVx : Vertex := ⟨NVID, inst.max_timestamp, 0,
    [("label", "PATTERN-" ++ toString it)], []⟩ with hNVx
  set G1 : Graph := { vs := g.vs ++ [(NVID, NVx)], es := g.es } with hG1
  set G2 : Graph := List.foldl removeInstEdge G1 inst.es with hG2
  have hG1es : G1.es = g.es := rfl
  have hG1keys : akeys G1.vs = akeys g.vs ++ [NVID] := by
    rw [hG1]
    simp [akeys]
  have hG1vsN : (akeys G1.vs).Nodup := by
    rw [hG1keys, List.nodup_append]
    exact ⟨hWF.1, List.nodup_singleton _, by
      intro a ha hb
      rcases List.mem_singleton.mp hb with rfl
      exact hfresh ha⟩
  have hG1look : ∀ k, k ∈ akeys g.vs → alookup G1.vs k = alookup g.vs k := by
    intro k hk
    rw [hG1]
    dsimp only
    rw [alookup_append]
    obtain ⟨v, hv, -⟩ := alookup_eq_some_of_mem_keys g.vs k hk
    rw [hv]
  have hG1nv : alookup G1.vs NVID = some NVx := by
    rw [hG1]
    dsimp only
    rw [alookup_append]
    have hnone : alookup g.vs NVID = none := by
      cases h : alookup g.vs NVID with
      | none => rfl
      | some w =>
        exact absurd ((mem_akeys_iff_isSome g.vs NVID).mpr (by rw [h]; rfl))
          hfresh
    rw [hnone, alookup_cons, if_pos rfl]
  have hG2vskeys : akeys G2.vs = akeys G1.vs := foldRIE_vs_keys inst.es G1
  have hG2esLen : G2.es.length + inst.es.length = g.es.length := by
    have := foldRIE_es_length inst.es G1 (by rw [hG1es]; exact hWF.2.1) hend
      (by rw [hG1es]; exact hesub)
    rw [hG1es] at this
    exact this
  have hG2look : ∀ eid, alookup G2.es eid =
      if eid ∈ inst.es then none else alookup g.es eid := by
    intro eid
    have := foldRIE_es_lookup inst.es G1 eid
    rw [hG1es] at this
    exact this
  have hvsubG2 : ∀ v ∈ inst.vs, v ∈ akeys G2.vs := by
    intro v hv
    rw [hG2vskeys, hG1keys]
    exact List.mem_append.mpr (Or.inl (hvsub v hv))
  have hG2vsN : (akeys G2.vs).Nodup := by
    rw [hG2vskeys]
    exact hG1vsN
  have hG2vslen : G2.vs.length = g.vs.length + 1 := by
    have h1 := congrArg List.length hG2vskeys
    have h2 := congrArg List.length hG1keys
    simp only [akeys, List.length_map, List.length_append,
      List.length_singleton] at h1 h2
    omega
  refine ⟨?_, ?_, ?_⟩
  · have := compressFold_vs_length NVID inst.vs G2 hvnd hvsubG2 hG2vsN
    omega
  · have hkeys := compressFold_es_keys NVID inst.vs G2
    have hlen := congrArg List.length hkeys
    simp only [akeys, List.length_map] at hlen
    omega
  · intro eid0 E0 hE0 hnotin hxor
    have hnvidVS : NVID ∉ inst.vs := fun hc => hfresh (hvsub NVID hc)
    have hes0 : alookup G2.es eid0 = some E0 := by
      rw [hG2look eid0, if_neg hnotin, hE0]
    have hnv0 : (alookup G2.vs NVID).map (fun x => x.es.count eid0) =
        some 0 := by
      rw [hG2, foldRIE_count inst.es G1 eid0 hnotin NVID, hG1nv]
      rfl
    have hcntv : ∀ (v0 : String), (E0.src = v0 ∧ E0.tgt ∉ inst.vs) ∨
        (E0.tgt = v0 ∧ E0.src ∉ inst.vs) →
        ∀ v ∈ inst.vs, (alookup G2.vs v).map (fun x => x.es.count eid0) =
          some (if v = v0 then 1 else 0) := by
      intro v0 hv0 v hv
      rw [hG2, foldRIE_count inst.es G1 eid0 hnotin v,
        hG1look v (hvsub v hv)]
      obtain ⟨vOrig, hvOrig, hmemOrig⟩ :=
        alookup_eq_some_of_mem_keys g.vs v (hvsub v hv)
      rw [hvOrig]
      simp only [Option.map_some', Option.some.injEq]
      have hcount := hWF.2.2.2 (v, vOrig) (alookup_mem g.vs v vOrig hvOrig) eid0
      rw [hcount]
      unfold incCount
      rw [hE0]
      dsimp only
      rcases hv0 with ⟨hsrc, htout⟩ | ⟨htgt, hsout⟩
      · have htne : E0.tgt ≠ v := fun hc => htout (hc ▸ hv)
        by_cases hsv : E0.src = v
        · rw [if_pos hsv, if_neg htne, if_pos (by rw [← hsv, hsrc])]
        · rw [if_neg hsv, if_neg htne,
            if_neg (by intro hc; exact hsv (by rw [hsrc, hc]))]
      · have hsne : E0.src ≠ v := fun hc => hsout (hc ▸ hv)
        by_cases htv : E0.tgt = v
        · rw [if_neg hsne, if_pos htv, if_pos (by rw [← htv, htgt])]
        · rw [if_neg hsne, if_neg htv,
            if_neg (by intro hc; exact htv (by rw [htgt, hc]))]
    rcases hxor with ⟨hsrcin, htgtout⟩ | ⟨hsrcout, htgtin⟩
    · have hJ := compressFold_J NVID E0.src eid0 E0
        { E0 with
          src := (if E0.src ∈ inst.vs then NVID else E0.src),
          tgt := (if E0.tgt ∈ inst.vs then NVID else E0.tgt) }
        G2 inst.vs hnvidVS
        (by
          have h1 : (if E0.src ∈ inst.vs then NVID else E0.src) = NVID :=
            if_pos hsrcin
          have h2 : (if E0.tgt ∈ inst.vs then NVID else E0.tgt) = E0.tgt :=
            if_neg htgtout
          have h3 : (if E0.src = E0.src then NVID else E0.src) = NVID :=
            if_pos rfl
          have h4 : (if E0.tgt = E0.src then NVID else E0.tgt) = E0.tgt :=
            if_neg (fun hc : E0.tgt = E0.src =>
              htgtout (by rw [hc]; exact hsrcin))
          rw [h1, h2, h3, h4])
        (hcntv E0.src (Or.inl ⟨rfl, htgtout⟩))
        inst.vs G2 (fun v hv => hv) hvnd
        (by rw [if_pos hsrcin]; exact hes0)
        (by rw [if_pos hsrcin]; exact hnv0)
        (fun k _ _ => rfl)
      refine ⟨hJ.1, ?_⟩
      cases hNVfin : alookup (List.foldl (compressVertex NVID) G2 inst.vs).vs
          NVID with
      | none =>
        rw [hNVfin] at hJ
        simp at hJ
      | some NV =>
        have h2 := hJ.2
        rw [hNVfin] at h2
        simp only [Option.map_some', Option.some.injEq] at h2
        exact ⟨NV, rfl, h2⟩
    · have hJ := compressFold_J NVID E0.tgt eid0 E0
        { E0 with
          src := (if E0.src ∈ inst.vs then NVID else E0.src),
          tgt := (if E0.tgt ∈ inst.vs then NVID else E0.tgt) }
        G2 inst.vs hnvidVS
        (by
          have h1 : (if E0.src ∈ inst.vs then NVID else E0.src) = E0.src :=
            if_neg hsrcout
          have h2 : (if E0.tgt ∈ inst.vs then NVID else E0.tgt) = NVID :=
            if_pos htgtin
          have h3 : (if E0.src = E0.tgt then NVID else E0.src) = E0.src :=
            if_neg (fun hc : E0.src = E0.tgt =>
              hsrcout (by rw [hc]; exact htgtin))
          have h4 : (if E0.tgt = E0.tgt then NVID else E0.tgt) = NVID :=
            if_pos rfl
          rw [h1, h2, h3, h4])
        (hcntv E0.tgt (Or.inr ⟨rfl, hsrcout⟩))
        inst.vs G2 (fun v hv => hv) hvnd
        (by rw [if_pos htgtin]; exact hes0)
        (by rw [if_pos htgtin]; exact hnv0)
        (fun k _ _ => rfl)
      refine ⟨hJ.1, ?_⟩
      cases hNVfin : alookup (List.foldl (compressVertex NVID) G2 inst.vs).vs
          NVID with
      | none =>
        rw [hNVfin] at hJ
        simp at hJ
      | some NV =>
        have h2 := hJ.2
        rw [hNVfin] at h2
        simp only [Option.map_some', Option.some.injEq] at h2
        exact ⟨NV, rfl, h2⟩

/-- A graph that already contains a vertex named like a generated pattern id,
used to refute the unconditional compression-count claim. -/
def gCol : Graph :=
  ⟨[("a", ⟨"a", 0, 0, [], []⟩),
    ("PATTERN-7-0", ⟨"PATTERN-7-0", 0, 0, [], []⟩)], []⟩

/-- A one-vertex, zero-edge instance of `gCol`. -/
def instCol : PInstance := ⟨["a"], [], 0⟩

/-- C1 counterexample: `gCol` satisfies the dual-mapping invariant and
`instCol` is a non-overlapping instance drawn from it with `k = 1` vertices,
yet `Compress(7, …)` shrinks the vertex count from 2 to 1 — a decrease of
`k`, not `k - 1` — because the generated id `PATTERN-7-0` collides with an
existing vertex and the dict assignment overwrites it. -/
theorem claim_C1_counterexample :
    WF gCol ∧ instCol.vs.Nodup ∧ instCol.es.Nodup ∧
    (∀ v ∈ instCol.vs, v ∈ akeys gCol.vs) ∧
    (∀ e ∈ instCol.es, e ∈ akeys gCol.es) ∧
    gCol.vs.length = 2 ∧ instCol.vs.length = 1 ∧ instCol.es.length = 0 ∧
    (Compress gCol 7 { insts := [instCol] }).vs.length = 1 := by
  refine ⟨⟨by decide, by decide, ?_, ?_⟩, by decide, by decide, by decide,
    ?_, rfl, rfl, rfl, ?_⟩
  · intro p hp
    exact absurd hp (List.not_mem_nil p)
  · intro p hp eid
    fin_cases hp <;> simp [incCount, alookup_nil, gCol]
  · intro e he
    exact absurd he (List.not_mem_nil e)
  · rfl

/-- A one-vertex graph for the C1 witness. -/
def gOneV : Graph := ⟨[("a", ⟨"a", 0, 0, [], []⟩)], []⟩

/-- Its single-vertex instance. -/
def instOneV : PInstance := ⟨["a"], [], 5⟩

/-- C1 witness. -/
theorem claim_C1_witness :
    (Compress gOneV 3 { insts := [instOneV] }).vs.length +
        instOneV.vs.length = gOneV.vs.length + 1 :=
  (claim_C1 gOneV instOneV 3
    ⟨by decide, by decide, fun p hp => absurd hp (List.not_mem_nil p),
     fun p hp eid => by fin_cases hp <;> simp [incCount, alookup_nil, gOneV]⟩
    (by decide) (by decide) (fun e he => absurd he (List.not_mem_nil e))
    (by decide) (by decide)).1
